import Mathlib

/-!
Verification of the task-orchestration core of the `-Trap_House` repository
(`mcp-orchestrator`): the task decomposer (`task-decomposition`), the
knowledge-graph service (`knowledge-graph.ts`) and the context compressor
(`context-compression.ts`), shallowly embedded in Lean 4.

JavaScript conventions reflected in the embedding:
  * a JS `Map` is modelled by its insertion-ordered key list plus a
    last-write-wins lookup over the underlying entry list;
  * a JS `Set` used only through `has`/`add`/`delete` is modelled as a list
    with membership tests (its internal order is never observed);
  * `x || default` on strings and numbers uses JS truthiness: the empty
    string and `0` fall through to the default;
  * object spread `{ a := v, ...m }` lets a key present in `m` override `v`;
    an absent (undefined) field is an `Option` that is `none`;
  * JS numbers are modelled exactly (Int, or fractions for relevance
    scores); `Math.floor` of a quotient is `Int.fdiv`.
-/

/-- JS string truthiness for `v || d`: `undefined` and `""` fall through. -/
def jsOrStr (v : Option String) (d : String) : String :=
  match v with
  | none => d
  | some s => if s = "" then d else s

/-- JS number truthiness for `v || d`: `undefined` and `0` fall through. -/
def jsOrNum (v : Option Int) (d : Int) : Int :=
  match v with
  | none => d
  | some n => if n = 0 then d else n

/-- JS string interpolation of a possibly-undefined value: `undefined`
prints as the string "undefined". -/
def jsStringOfOpt : Option String → String
  | some s => s
  | none => "undefined"

/-- Lowercasing, written over the character list so that it evaluates by
kernel reduction (`String.toLower` itself does not reduce). -/
def strToLower (s : String) : String := ⟨s.data.map Char.toLower⟩

/-- JS `hay.includes(needle)`: substring test. -/
def strContains (hay needle : String) : Bool :=
  decide (needle.data <:+: hay.data)

/-- JS `Set.add` on a set held in insertion order: append if absent. -/
def insertSet (s : List String) (x : String) : List String :=
  if x ∈ s then s else s ++ [x]

namespace TaskDecomposer

/-! ### Data model (messages/types: OrchestrationMessage)

`metadata` of an orchestration message as produced by the decomposer:
`taskId`, `taskName`, `taskType`, `priority`, `dependencies`, `status`,
`retries`. -/

structure TaskMeta where
  taskId : String
  taskName : String := ""
  taskType : String := ""
  priority : Int := 1
  dependencies : List String := []
  status : String := "pending"
  retries : Int := 0
deriving DecidableEq, Repr

structure OrchestrationMessage where
  content : String := ""
  metadata : TaskMeta
deriving DecidableEq, Repr

/-- A caller-supplied candidate task as fed to `validateAndEnrichTasks`:
every field may be absent (`any[]` input). -/
structure RawMeta where
  taskId : Option String := none
  taskName : Option String := none
  taskType : Option String := none
  priority : Option Int := none
  dependencies : Option (List String) := none
  status : Option String := none
  retries : Option Int := none
deriving DecidableEq, Repr

structure RawTask where
  content : Option String := none
  metadata : Option RawMeta := none
deriving DecidableEq, Repr

/-- `inferWorkerType(taskName, description)`: first-match keyword routing
over the lowercased concatenation of name and description. -/
def inferWorkerType (taskName description : String) : String :=
  let normalizedText := strToLower (taskName ++ " " ++ description)
  if strContains normalizedText "scan" || strContains normalizedText "project" then
    "project-scan"
  else if strContains normalizedText "analyze" || strContains normalizedText "static" then
    "static-analysis"
  else if strContains normalizedText "depend" || strContains normalizedText "package" then
    "dependency-check"
  else if strContains normalizedText "innovat" || strContains normalizedText "suggest" then
    "innovation-suggestion"
  else if strContains normalizedText "knowledge" || strContains normalizedText "graph" then
    "knowledge"
  else
    "local-data"

/-- `validateAndEnrichTasks(tasks)`: per element, compute defaulted fields
with JS `||`, then build the metadata object whose literal fields
`status: 'pending'`, `retries: 0`, etc. are followed by the spread
`...task.metadata`, so every key present in the caller's metadata
overrides the freshly computed value. -/
def validateAndEnrichTasks (tasks : List RawTask) : List OrchestrationMessage :=
  tasks.mapIdx (fun index task =>
    let m := task.metadata.getD {}
    let taskId := jsOrStr m.taskId ("task-" ++ toString (index + 1))
    let taskName := jsOrStr m.taskName ("Task " ++ toString (index + 1))
    let taskType := jsOrStr m.taskType (inferWorkerType taskName (jsStringOfOpt task.content))
    { content := jsOrStr task.content ("Execute task: " ++ taskName)
      metadata :=
        { taskId := m.taskId.getD taskId
          taskName := m.taskName.getD taskName
          taskType := m.taskType.getD taskType
          priority := m.priority.getD (jsOrNum m.priority 1)
          dependencies := m.dependencies.getD (m.dependencies.getD [])
          status := m.status.getD "pending"
          retries := m.retries.getD 0 } })

/-! ### buildExecutionPlan

`taskMap` is a JS `Map` filled by `taskMap.set(task.metadata.taskId, task)`
over the input in order: lookup is last-write-wins, the key list is in
first-insertion order.  `dependencyGraph.get(id)` accumulates, over every
input task whose id is `id`, the task's dependency ids that are present in
the map (a `Set`, in insertion order).  `dependentsGraph` is built by the
source but never read by the traversal, so it is not modelled. -/

def taskMapGet (tasks : List OrchestrationMessage) (id : String) :
    Option OrchestrationMessage :=
  tasks.foldl (fun acc t => if t.metadata.taskId = id then some t else acc) none

def taskMapHas (tasks : List OrchestrationMessage) (id : String) : Bool :=
  (taskMapGet tasks id).isSome

def taskMapKeys (tasks : List OrchestrationMessage) : List String :=
  tasks.foldl (fun ks t => insertSet ks t.metadata.taskId) []

def dependencyGraphAt (tasks : List OrchestrationMessage) (id : String) :
    List String :=
  tasks.foldl
    (fun acc t =>
      if t.metadata.taskId = id then
        t.metadata.dependencies.foldl
          (fun a d => if taskMapHas tasks d then insertSet a d else a) acc
      else acc)
    []

/-- The traversal state of the depth-first visit: `visited` and `temp` are
JS `Set`s observed only through membership, `order` is the sequence of task
ids pushed onto `executionOrder` (the task objects themselves are recovered
from the immutable `taskMap` at the end). -/
structure DfsState where
  visited : List String
  temp : List String
  order : List String
deriving DecidableEq, Repr

def cycleMsg (taskId : String) : String :=
  "Dependency cycle detected involving task " ++ taskId

def fuelMsg : String := "fuel exhausted"

/-- Iterating a visit step over a dependency list
(`for (const depId of dependencies)`), stopping at the first error. -/
def visitListF (f : String → DfsState → Except String DfsState) :
    List String → DfsState → Except String DfsState
  | [], s => .ok s
  | d :: ds, s =>
    match f d s with
    | .error e => .error e
    | .ok s2 => visitListF f ds s2

/-- The recursive `visit` closure of `buildExecutionPlan`.  `fuel` bounds the
recursion depth; `buildExecutionPlan` passes enough fuel that the bound is
never hit (`visit_spec` below), so the `fuelMsg` branch is dead code needed
only to express the JS recursion structurally. -/
def visit (deps : String → List String) (hasTask : String → Bool) :
    Nat → String → DfsState → Except String DfsState
  | 0, _, _ => .error fuelMsg
  | fuel + 1, taskId, s =>
    if taskId ∈ s.temp then .error (cycleMsg taskId)
    else if taskId ∈ s.visited then .ok s
    else
      match visitListF (fun d st => visit deps hasTask fuel d st) (deps taskId)
          { s with temp := taskId :: s.temp } with
      | .error e => .error e
      | .ok s2 =>
        .ok { visited := taskId :: s2.visited
              temp := s2.temp.erase taskId
              order := if hasTask taskId then s2.order ++ [taskId] else s2.order }

/-- The dependency loop of `visit` at a given fuel level. -/
def visitList (deps : String → List String) (hasTask : String → Bool)
    (fuel : Nat) : List String → DfsState → Except String DfsState :=
  visitListF (fun d st => visit deps hasTask fuel d st)

/-- The top-level loop `for (const taskId of taskMap.keys())` with its
`!visited.has(taskId)` guard. -/
def visitAllKeys (deps : String → List String) (hasTask : String → Bool)
    (fuel : Nat) : List String → DfsState → Except String DfsState
  | [], s => .ok s
  | k :: ks, s =>
    if k ∈ s.visited then visitAllKeys deps hasTask fuel ks s
    else
      match visit deps hasTask fuel k s with
      | .error e => .error e
      | .ok s2 => visitAllKeys deps hasTask fuel ks s2

/-- `buildExecutionPlan(tasks)`: build the maps, run the depth-first
traversal over all keys, then return `executionOrder.reverse()`.  The
thrown cycle error is an `Except.error`. -/
def buildExecutionPlan (tasks : List OrchestrationMessage) :
    Except String (List OrchestrationMessage) :=
  match visitAllKeys (dependencyGraphAt tasks) (taskMapHas tasks)
      (tasks.length + 1) (taskMapKeys tasks) ⟨[], [], []⟩ with
  | .error e => .error e
  | .ok s => .ok ((s.order.filterMap (taskMapGet tasks)).reverse)

/-- The in-plan dependency relation of a task list: `planEdge tasks a b`
holds when some input task with id `a` lists `b` among its dependencies and
`b` is itself the id of a task in the plan.  Dangling references (ids
absent from the plan) are outside this relation by construction. -/
def planEdge (tasks : List OrchestrationMessage) (a b : String) : Prop :=
  ∃ t ∈ tasks, t.metadata.taskId = a ∧ b ∈ t.metadata.dependencies ∧
    taskMapHas tasks b = true

/-- Dropping every dangling dependency reference from the input: used to
express that dangling references never influence `buildExecutionPlan`. -/
def dropDanglingDeps (tasks : List OrchestrationMessage) :
    List OrchestrationMessage :=
  tasks.map (fun t =>
    { t with metadata :=
      { t.metadata with dependencies :=
          t.metadata.dependencies.filter (fun d => taskMapHas tasks d) } })

/-! ### Specification vocabulary for the depth-first traversal

The traversal is analysed over abstract parameters: `deps` (the in-plan
dependency lists), `hasTask` (map membership) and `keys` (the map's key
list).  `buildExecutionPlan` instantiates them with `dependencyGraphAt`,
`taskMapHas` and `taskMapKeys`. -/

section DfsSpecDefs

variable (deps : String → List String) (hasTask : String → Bool)
variable (keys : List String)

/-- One dependency edge: `a` depends on `b`. -/
def DepEdge (a b : String) : Prop := b ∈ deps a

/-- Invariant of the `visited`/`order` components of the traversal state:
`order` lists exactly the visited ids, without repetition, each strictly
after all its dependencies (`pair` forbids an earlier entry depending on a
later one, `closed` and `noself` make the dependencies of every entry
earlier entries). -/
structure Inv (s : DfsState) : Prop where
  memIff : ∀ x, x ∈ s.visited ↔ x ∈ s.order
  nodup : s.order.Nodup
  pair : List.Pairwise (fun x y => y ∉ deps x) s.order
  closed : ∀ a ∈ s.order, ∀ b ∈ deps a, b ∈ s.order
  noself : ∀ a ∈ s.order, a ∉ deps a
  inKeys : ∀ x ∈ s.visited, x ∈ keys

/-- Invariant of the `temp` stack: distinct keys forming a dependency
chain, each element a dependency of the one pushed just before it. -/
structure TempInv (s : DfsState) : Prop where
  nodup : s.temp.Nodup
  inKeys : ∀ t ∈ s.temp, t ∈ keys
  chain : List.Chain' (fun a b => a ∈ deps b) s.temp

/-- Every error the traversal can produce (given enough fuel): the cycle
message for an id that really lies on a dependency cycle. -/
def ErrOK (e : String) : Prop :=
  ∃ d, e = cycleMsg d ∧ Relation.TransGen (DepEdge deps) d d

/-- What a successful call guarantees relative to its input state. -/
structure OkPost (s s2 : DfsState) : Prop where
  inv : Inv deps keys s2
  temp : s2.temp = s.temp
  mono : ∀ x ∈ s.visited, x ∈ s2.visited
  fresh : ∀ x ∈ s2.visited, x ∈ s.visited ∨ x ∉ s.temp
  ordApp : ∃ l, s2.order = s.order ++ l

/-- Specification of `visit` at a given fuel level. -/
def VisitSpec (fuel : Nat) : Prop :=
  ∀ id s, Inv deps keys s → TempInv deps keys s → id ∈ keys →
    (s.temp = [] ∨ ∃ h t, s.temp = h :: t ∧ id ∈ deps h) →
    keys.length + 1 ≤ fuel + s.temp.length →
    (∀ e, visit deps hasTask fuel id s = .error e → ErrOK deps e) ∧
    (∀ s2, visit deps hasTask fuel id s = .ok s2 →
      OkPost deps keys s s2 ∧ id ∈ s2.visited)

/-- Specification of the dependency loop at a given fuel level. -/
def ListSpec (fuel : Nat) : Prop :=
  ∀ ds s, Inv deps keys s → TempInv deps keys s → (∀ d ∈ ds, d ∈ keys) →
    (∃ h t, s.temp = h :: t ∧ ∀ d ∈ ds, d ∈ deps h) →
    keys.length + 1 ≤ fuel + s.temp.length →
    (∀ e, visitList deps hasTask fuel ds s = .error e → ErrOK deps e) ∧
    (∀ s2, visitList deps hasTask fuel ds s = .ok s2 →
      OkPost deps keys s s2 ∧ ∀ d ∈ ds, d ∈ s2.visited)

end DfsSpecDefs

end TaskDecomposer

namespace KnowledgeGraph

/-! ### Knowledge Graph Service (knowledge-graph.ts)

Modelled from the spec: the generic Graph Store (`utils/graph`) is not part
of the staged sources; per spec sections 2 and 3 it is a directed labelled
multigraph over opaque node/edge records, nodes upserted by id, edges
appended (duplicates allowed).  A node's `data` attribute bag is opaque to
the service except for its JSON serialization (the only thing relevance
matching reads), so `data` is modelled as its serialized string.
`getAllNodes` returns the nodes in insertion order, `getEdgesFrom` the
edges with the given `from` endpoint in insertion order. -/

structure GraphNode where
  id : String
  type : String
  data : String := ""
deriving DecidableEq, Repr

structure GraphEdge where
  fromId : String
  toId : String
  type : String
  data : Option String := none
deriving DecidableEq, Repr

structure Graph where
  nodes : List GraphNode
  edges : List GraphEdge
deriving DecidableEq, Repr

def Graph.getAllNodes (g : Graph) : List GraphNode := g.nodes

def Graph.getEdgesFrom (g : Graph) (id : String) : List GraphEdge :=
  g.edges.filter (fun e => e.fromId = id)

/-- The slice of a task message that `getRelevantContext` reads:
`content` (may be absent) and `metadata.taskType` (metadata may be absent,
`taskMessage.metadata || {}` in the source). -/
structure KGMeta where
  taskType : Option String := none
deriving DecidableEq, Repr

structure KGMessage where
  content : Option String := none
  metadata : Option KGMeta := none
deriving DecidableEq, Repr

/-- A JS number arising as `keywordMatches / keywords.length` plus an
optional `0.5` bonus, modelled as the exact fraction `num / den` and
compared by cross-multiplication.  `0 / 0` (the JS `NaN` that arises when
the keyword list is empty) compares as a tie against everything and fails
the `> 0` test, matching how `NaN` behaves in the source's comparator and
`relevance > 0` check. -/
structure Score where
  num : Int
  den : Int
deriving DecidableEq, Repr

def Score.add (a b : Score) : Score :=
  ⟨a.num * b.den + b.num * a.den, a.den * b.den⟩

/-- Comparison `a <= b` of the two fractions by cross-multiplication. -/
def Score.leB (a b : Score) : Bool :=
  decide (a.num * b.den ≤ b.num * a.den)

/-- Test `0 < a`: the numerator (a match count, hence nonnegative) is
positive. -/
def Score.posB (a : Score) : Bool :=
  decide (0 < a.num)

def isWordChar (c : Char) : Bool := c.isAlphanum || c = '_'

/-- Splitting on whitespace runs.  The empty tokens that JS
`split(/\s+/)` can produce at a boundary are dropped here; the source drops
them in the length filter that immediately follows, so the keyword lists
agree. -/
def splitWords : List Char → List Char → List String
  | cur, [] => if cur.isEmpty then [] else [⟨cur.reverse⟩]
  | cur, c :: cs =>
    if c.isWhitespace then
      if cur.isEmpty then splitWords [] cs
      else ⟨cur.reverse⟩ :: splitWords [] cs
    else splitWords (c :: cur) cs

def stopWords : List String := ["the", "and", "that", "have", "for", "with"]

/-- `extractKeywords`: lowercase, strip every character that is neither a
word character nor whitespace, split on whitespace, keep tokens longer
than 3 that are not stop words. -/
def extractKeywords (query : String) : List String :=
  ((splitWords []
      ((strToLower query).data.filter (fun c => isWordChar c || c.isWhitespace))).filter
    (fun word => decide (word.length > 3))).filter
    (fun word => !stopWords.contains word)

structure ScoredNode where
  node : GraphNode
  relevance : Score
deriving DecidableEq, Repr

/-- The task-type bonus: `0.5` for `dependency-check` on a `dependency`
node or `static-analysis` on a `codeEntity` node, else `0`. -/
def taskTypeRelevance (taskType : Option String) (node : GraphNode) : Score :=
  match taskType with
  | none => ⟨0, 1⟩
  | some tt =>
    if tt = "dependency-check" ∧ node.type = "dependency" then ⟨1, 2⟩
    else if tt = "static-analysis" ∧ node.type = "codeEntity" then ⟨1, 2⟩
    else ⟨0, 1⟩

def keywordMatches (keywords : List String) (node : GraphNode) : Nat :=
  (keywords.filter (fun k => strContains (strToLower node.data) k)).length

/-- One step of the node scan of `findRelevantNodes`: score the node; keep
it when the lexical relevance or the task-type bonus is positive. -/
def scoreStep (keywords : List String) (taskType : Option String)
    (relevantNodes : List ScoredNode) (node : GraphNode) : List ScoredNode :=
  let relevance : Score :=
    ⟨(keywordMatches keywords node : Int), (keywords.length : Int)⟩
  let ttr := taskTypeRelevance taskType node
  if relevance.posB || ttr.posB then
    relevantNodes ++ [⟨node, relevance.add ttr⟩]
  else relevantNodes

def findRelevantNodes (g : Graph) (keywords : List String)
    (taskType : Option String) : List ScoredNode :=
  g.getAllNodes.foldl (scoreStep keywords taskType) []

/-- Stable insertion for the descending sort: an element is placed before
every element of smaller or equal relevance that it preceded originally. -/
def insertByRelevance (x : ScoredNode) : List ScoredNode → List ScoredNode
  | [] => [x]
  | y :: l =>
    if Score.leB y.relevance x.relevance then x :: y :: l
    else y :: insertByRelevance x l

/-- The source sorts with the comparator `(a, b) => b.relevance - a.relevance`:
a stable descending sort (JS `Array.prototype.sort` is stable); stable
insertion sort realizes the same specification. -/
def sortByRelevanceDesc : List ScoredNode → List ScoredNode
  | [] => []
  | x :: l => insertByRelevance x (sortByRelevanceDesc l)

structure ContextEntity where
  id : String
  type : String
  data : String
deriving DecidableEq, Repr

structure ContextRel where
  fromId : String
  toId : String
  type : String
  data : Option String := none
deriving DecidableEq, Repr

structure KGSummary where
  entityCount : Nat
  relationshipCount : Nat
  entityTypes : List (String × Nat)
  relationshipTypes : List (String × Nat)
deriving DecidableEq, Repr

structure KGContext where
  entities : List ContextEntity
  relationships : List ContextRel
  summary : KGSummary
deriving DecidableEq, Repr

/-- `countByType`: a JS object used as a counter, keys in first-appearance
order. -/
def bumpCount : List (String × Nat) → String → List (String × Nat)
  | [], ty => [(ty, 1)]
  | (t, n) :: rest, ty =>
    if t = ty then (t, n + 1) :: rest else (t, n) :: bumpCount rest ty

def countByType (types : List String) : List (String × Nat) :=
  types.foldl bumpCount []

/-- The relationship records harvested while processing one selected node:
its outgoing edges whose target id is already included. -/
def ctxNewRels (g : Graph) (includedNodeIds : List String)
    (sn : ScoredNode) : List ContextRel :=
  ((g.getEdgesFrom sn.node.id).filter
    (fun e => decide (e.toId ∈ includedNodeIds))).map
    (fun e => (⟨e.fromId, e.toId, e.type, e.data⟩ : ContextRel))

/-- One step of the `relevantNodes.forEach` loop of
`buildContextFromNodes`: add the node's id to `includedNodeIds` and its
entity record, then keep every edge leaving it whose target id is already
in `includedNodeIds`. -/
def ctxStep (g : Graph)
    (acc : List String × List ContextEntity × List ContextRel)
    (sn : ScoredNode) : List String × List ContextEntity × List ContextRel :=
  let includedNodeIds := insertSet acc.1 sn.node.id
  let entities := acc.2.1 ++ [⟨sn.node.id, sn.node.type, sn.node.data⟩]
  (includedNodeIds, entities, acc.2.2 ++ ctxNewRels g includedNodeIds sn)

/-- `buildContextFromNodes`: walk the selected nodes in order with
`ctxStep`, then attach the summary counts. -/
def buildContextFromNodes (g : Graph) (relevantNodes : List ScoredNode) :
    KGContext :=
  let res := relevantNodes.foldl (ctxStep g) ([], [], [])
  { entities := res.2.1
    relationships := res.2.2
    summary :=
      { entityCount := res.2.1.length
        relationshipCount := res.2.2.length
        entityTypes := countByType (res.2.1.map (fun e => e.type))
        relationshipTypes := countByType (res.2.2.map (fun r => r.type)) } }

/-- The JS exception thrown by `taskMessage.content.toLowerCase()` when
`content` is absent. -/
inductive JsError
  | typeError
deriving DecidableEq, Repr

/-- `getRelevantContext(taskMessage, maxNodes)`. -/
def getRelevantContext (g : Graph) (taskMessage : KGMessage)
    (maxNodes : Nat := 20) : Except JsError KGContext :=
  match taskMessage.content with
  | none => .error .typeError
  | some content =>
    let query := strToLower content
    let metadata := taskMessage.metadata.getD {}
    let keywords := extractKeywords query
    let relevantNodes := findRelevantNodes g keywords metadata.taskType
    let sorted := sortByRelevanceDesc relevantNodes
    let topNodes := sorted.take maxNodes
    .ok (buildContextFromNodes g topNodes)

end KnowledgeGraph

namespace ContextCompressor

/-! ### Context Compressor (context-compression.ts)

The collaborators of the compressor — `TokenCounter`, `ContextPrioritizer`
and `CodeSummarizer` from `../utils`, plus JSON serialization of untyped
objects — are not part of the staged sources (spec sections 4.3 and 6
treat them as external collaborator capabilities), so they appear as
abstract parameters bundled in `Collaborators`.

JS objects mutate through references: `compressDependenciesComponent`
sorts `component.dependencies` in place, a mutation visible to the caller.
The embedding passes this state explicitly: the compressing functions
return both their result and the post-state of the component (list)
they were given. -/

structure Dep where
  name : String := ""
  importanceScore : Int := 0
deriving DecidableEq, Repr

/-- A context component.  Fields that a given component shape does not
carry keep their defaults (an absent key). -/
structure Component where
  type : String
  path : Option String := none
  content : String := ""
  dependencies : List Dep := []
  summarizedContent : Option String := none
  totalCount : Option Nat := none
  isCompressed : Bool := false
deriving DecidableEq, Repr

structure EssentialMetadata where
  userId : Option String := none
  projectType : Option String := none
  requestType : Option String := none
  timestamp : Option String := none
deriving DecidableEq, Repr

structure CompressorContext where
  userId : Option String := none
  projectType : Option String := none
  requestType : Option String := none
  timestamp : Option String := none
  components : List Component := []
deriving DecidableEq, Repr

structure Collaborators where
  count : String → Nat
  stringifyComponent : Component → String
  stringifyMeta : EssentialMetadata → String
  summarize : String → Int → String
  prioritize : CompressorContext → List Component

structure CompressedContext where
  meta : EssentialMetadata
  components : List Component
deriving DecidableEq

def extractEssentialMetadata (context : CompressorContext) : EssentialMetadata :=
  { userId := context.userId
    projectType := context.projectType
    requestType := context.requestType
    timestamp := context.timestamp }

/-- Stable insertion for the descending sort by `importanceScore`
(comparator `(a, b) => b.importanceScore - a.importanceScore`, stable). -/
def insertDepByScore (x : Dep) : List Dep → List Dep
  | [] => [x]
  | y :: l =>
    if y.importanceScore ≤ x.importanceScore then x :: y :: l
    else y :: insertDepByScore x l

def sortDepsDesc : List Dep → List Dep
  | [] => []
  | x :: l => insertDepByScore x (sortDepsDesc l)

def compressCodeComponent (co : Collaborators) (component : Component)
    (budget : Int) : Option Component :=
  if (co.count component.content : Int) > budget then
    some { type := "code"
           path := component.path
           summarizedContent := some (co.summarize component.content budget)
           isCompressed := true }
  else none

/-- `compressDependenciesComponent`: `component.dependencies.sort(...)`
sorts the caller's array in place, then `.slice(0, Math.max(1,
Math.floor(budget / 50)))` copies the kept prefix.  Returns the result and
the post-state of `component` (its dependencies now sorted). -/
def compressDependenciesComponent (component : Component) (budget : Int) :
    Option Component × Component :=
  if component.dependencies.length > 0 then
    let sorted := sortDepsDesc component.dependencies
    let importantDeps := sorted.take (max 1 (Int.fdiv budget 50)).toNat
    (some { type := "dependencies"
            dependencies := importantDeps
            totalCount := some component.dependencies.length
            isCompressed := true },
     { component with dependencies := sorted })
  else (none, component)

def compressDocumentationComponent (co : Collaborators)
    (component : Component) (budget : Int) : Option Component :=
  if component.content ≠ "" ∧ (co.count component.content : Int) > budget then
    some { type := "documentation"
           path := component.path
           summarizedContent := some (co.summarize component.content budget)
           isCompressed := true }
  else none

/-- `compressComponent`: dispatch on the component type; unknown types
decline (`null`).  Second result: the component's post-state. -/
def compressComponent (co : Collaborators) (component : Component)
    (budget : Int) : Option Component × Component :=
  if component.type = "code" then
    (compressCodeComponent co component budget, component)
  else if component.type = "dependencies" then
    compressDependenciesComponent component budget
  else if component.type = "documentation" then
    (compressDocumentationComponent co component budget, component)
  else (none, component)

/-- `fitComponentsInBudget(components, budget)` with its `usedTokens`
accumulator: include a component that fits, otherwise try to compress it
into the unused budget — on success include the compressed form and stop
(`break`), on decline drop it and continue.  Second result: the post-state
of the component list. -/
def fitComponentsInBudget (co : Collaborators) (budget : Int) :
    List Component → Int → List Component × List Component
  | [], _ => ([], [])
  | component :: rest, usedTokens =>
    let componentTokens : Int := co.count (co.stringifyComponent component)
    if usedTokens + componentTokens ≤ budget then
      let r := fitComponentsInBudget co budget rest (usedTokens + componentTokens)
      (component :: r.1, component :: r.2)
    else
      match compressComponent co component (budget - usedTokens) with
      | (some compressedComponent, component2) =>
        ([compressedComponent], component2 :: rest)
      | (none, component2) =>
        let r := fitComponentsInBudget co budget rest usedTokens
        (r.1, component2 :: r.2)

/-- `compress(context, maxTokens)`: essential metadata is extracted and
costed first, the rest of the budget goes to greedy component packing.
First result: the compressed context object; second: the post-state of the
prioritized component list (the only caller-visible mutation performed by
the call is the in-place dependency sort inside it). -/
def compress (co : Collaborators) (context : CompressorContext)
    (maxTokens : Int := 2000) : CompressedContext × List Component :=
  let essentialMetadata := extractEssentialMetadata context
  let essentialTokens : Int := co.count (co.stringifyMeta essentialMetadata)
  let remainingTokens := maxTokens - essentialTokens
  let prioritizedComponents := co.prioritize context
  let r := fitComponentsInBudget co remainingTokens prioritizedComponents 0
  ({ meta := essentialMetadata, components := r.1 }, r.2)

/-- The incremental fitting of a prefix: every component of `l` fits the
budget in turn, starting from `used` tokens already spent. -/
def AllFit (co : Collaborators) (budget : Int) : List Component → Int → Prop
  | [], _ => True
  | c :: rest, used =>
    used + (co.count (co.stringifyComponent c) : Int) ≤ budget ∧
      AllFit co budget rest (used + (co.count (co.stringifyComponent c) : Int))

/-- Total cost of a component list. -/
def totalCost (co : Collaborators) (l : List Component) : Int :=
  (l.map (fun c => (co.count (co.stringifyComponent c) : Int))).sum

end ContextCompressor

namespace Fixtures

/-! ### Concrete inputs used by witnesses and counterexamples -/

open TaskDecomposer KnowledgeGraph ContextCompressor

def planT1 : OrchestrationMessage :=
  { content := "first", metadata := { taskId := "task-1" } }

def planT2 : OrchestrationMessage :=
  { content := "second",
    metadata := { taskId := "task-2", dependencies := ["task-1"] } }

def cycTaskA : OrchestrationMessage :=
  { metadata := { taskId := "a", dependencies := ["b"] } }

def cycTaskB : OrchestrationMessage :=
  { metadata := { taskId := "b", dependencies := ["a"] } }

def danglingTask : OrchestrationMessage :=
  { metadata := { taskId := "only", dependencies := ["ghost"] } }

/-- A caller-supplied task that already carries `status` and `retries`. -/
def rawCarried : RawTask :=
  { content := some "x"
    metadata := some
      { taskId := some "t", taskName := some "n"
        taskType := some "local-data", priority := some 2
        dependencies := some [], status := some "running"
        retries := some 5 } }

def rawPlain : RawTask :=
  { content := some "x", metadata := some { taskId := some "t" } }

def nodeA : GraphNode := { id := "A", type := "file", data := "alpha one" }

def nodeB : GraphNode := { id := "B", type := "file", data := "alpha two" }

def edgeAB : GraphEdge := { fromId := "A", toId := "B", type := "imports" }

def graphAB : Graph := { nodes := [nodeA, nodeB], edges := [edgeAB] }

def msgAlpha : KGMessage := { content := some "alpha" }

def msgNoContent : KGMessage := { content := none }

def msgEmptyContent : KGMessage := { content := some "" }

def snA : ScoredNode := { node := nodeA, relevance := ⟨1, 1⟩ }

def snB : ScoredNode := { node := nodeB, relevance := ⟨1, 1⟩ }

/-- Concrete collaborators: token cost is string length, a component
serializes to its content, the essential metadata always costs 10. -/
def collabFix : Collaborators :=
  { count := String.length
    stringifyComponent := fun c => c.content
    stringifyMeta := fun _ => "0123456789"
    summarize := fun _ _ => "S"
    prioritize := fun ctx => ctx.components }

def compOther : Component := { type := "other", content := "ab" }

def compCode : Component := { type := "code", content := "abcdefgh" }

def compTail : Component := { type := "other", content := "x" }

def depLo : Dep := { name := "lo", importanceScore := 1 }

def depHi : Dep := { name := "hi", importanceScore := 9 }

def compDeps : Component := { type := "dependencies", dependencies := [depLo, depHi] }

def ctxDeps : CompressorContext := { userId := some "u", components := [compDeps] }

end Fixtures

/-! ### Basic facts about the insertion-ordered set -/

theorem mem_insertSet {s : List String} {x y : String} :
    y ∈ insertSet s x ↔ y ∈ s ∨ y = x := by
  unfold insertSet
  by_cases h : x ∈ s
  · simp only [if_pos h]
    exact ⟨fun hy => Or.inl hy, fun hy => hy.elim id (fun he => he ▸ h)⟩
  · simp [if_neg h]

theorem nodup_insertSet {s : List String} {x : String} (h : s.Nodup) :
    (insertSet s x).Nodup := by
  unfold insertSet
  by_cases hx : x ∈ s
  · simp [if_pos hx, h]
  · simp [if_neg hx, List.nodup_append, h, hx]

theorem length_insertSet (s : List String) (x : String) :
    (insertSet s x).length ≤ s.length + 1 := by
  unfold insertSet
  split <;> simp

namespace TaskDecomposer

/-! ### Basic facts about the map and set folds -/

theorem keysFold_mem (l : List OrchestrationMessage) :
    ∀ acc x, (x ∈ l.foldl (fun ks t => insertSet ks t.metadata.taskId) acc ↔
      x ∈ acc ∨ ∃ t ∈ l, t.metadata.taskId = x) := by
  induction l with
  | nil => simp
  | cons t l ih =>
    intro acc x
    simp only [List.foldl_cons, ih, mem_insertSet, List.mem_cons]
    constructor
    · rintro ((h | h) | h)
      · exact Or.inl h
      · exact Or.inr ⟨t, Or.inl rfl, h.symm⟩
      · rcases h with ⟨u, hu, hx⟩
        exact Or.inr ⟨u, Or.inr hu, hx⟩
    · rintro (h | ⟨u, (rfl | hu), hx⟩)
      · exact Or.inl (Or.inl h)
      · exact Or.inl (Or.inr hx.symm)
      · exact Or.inr ⟨u, hu, hx⟩

theorem keysFold_nodup (l : List OrchestrationMessage) :
    ∀ acc, acc.Nodup →
      (l.foldl (fun ks t => insertSet ks t.metadata.taskId) acc).Nodup := by
  induction l with
  | nil => intro acc hacc; simpa using hacc
  | cons t l ih =>
    intro acc hacc
    exact ih _ (nodup_insertSet hacc)

theorem keysFold_length (l : List OrchestrationMessage) :
    ∀ acc, (l.foldl (fun ks t => insertSet ks t.metadata.taskId) acc).length ≤
      acc.length + l.length := by
  induction l with
  | nil => simp
  | cons t l ih =>
    intro acc
    calc (List.foldl _ (insertSet acc t.metadata.taskId) l).length
        ≤ (insertSet acc t.metadata.taskId).length + l.length := ih _
      _ ≤ acc.length + 1 + l.length := by
          exact Nat.add_le_add_right (length_insertSet acc t.metadata.taskId) _
      _ = acc.length + (l.length + 1) := by omega

theorem mem_taskMapKeys {tasks : List OrchestrationMessage} {x : String} :
    x ∈ taskMapKeys tasks ↔ ∃ t ∈ tasks, t.metadata.taskId = x := by
  unfold taskMapKeys
  rw [keysFold_mem]
  simp

theorem taskMapKeys_nodup (tasks : List OrchestrationMessage) :
    (taskMapKeys tasks).Nodup :=
  keysFold_nodup tasks [] List.nodup_nil

theorem taskMapKeys_length (tasks : List OrchestrationMessage) :
    (taskMapKeys tasks).length ≤ tasks.length := by
  have := keysFold_length tasks []
  simpa [taskMapKeys] using this

theorem getFold_eq_some (l : List OrchestrationMessage) (id : String) :
    ∀ acc r,
      l.foldl (fun acc t => if t.metadata.taskId = id then some t else acc) acc
        = some r →
      (acc = some r ∨ (r ∈ l ∧ r.metadata.taskId = id)) := by
  induction l with
  | nil => simp
  | cons t l ih =>
    intro acc r h
    simp only [List.foldl_cons] at h
    rcases ih _ _ h with h' | h'
    · by_cases ht : t.metadata.taskId = id
      · rw [if_pos ht] at h'
        exact Or.inr ⟨by simp [← Option.some_inj.mp h'], by
          rw [← Option.some_inj.mp h']; exact ht⟩
      · rw [if_neg ht] at h'
        exact Or.inl h'
    · exact Or.inr ⟨List.mem_cons_of_mem _ h'.1, h'.2⟩

theorem getFold_isSome (l : List OrchestrationMessage) (id : String) :
    ∀ acc,
      (l.foldl (fun acc t => if t.metadata.taskId = id then some t else acc) acc).isSome
        = true ↔ acc.isSome = true ∨ ∃ t ∈ l, t.metadata.taskId = id := by
  induction l with
  | nil => simp
  | cons t l ih =>
    intro acc
    simp only [List.foldl_cons, ih, List.mem_cons]
    by_cases ht : t.metadata.taskId = id
    · simp [if_pos ht, ht]
    · simp only [if_neg ht]
      constructor
      · rintro (h | ⟨u, hu, hx⟩)
        · exact Or.inl h
        · exact Or.inr ⟨u, Or.inr hu, hx⟩
      · rintro (h | ⟨u, (rfl | hu), hx⟩)
        · exact Or.inl h
        · exact absurd hx ht
        · exact Or.inr ⟨u, hu, hx⟩

theorem taskMapHas_iff {tasks : List OrchestrationMessage} {id : String} :
    taskMapHas tasks id = true ↔ ∃ t ∈ tasks, t.metadata.taskId = id := by
  unfold taskMapHas taskMapGet
  rw [getFold_isSome]
  simp

theorem taskMapGet_mem {tasks : List OrchestrationMessage} {id : String}
    {r : OrchestrationMessage} (h : taskMapGet tasks id = some r) :
    r ∈ tasks ∧ r.metadata.taskId = id := by
  rcases getFold_eq_some tasks id none r h with h' | h'
  · cases h'
  · exact h'

theorem getFold_skip (l : List OrchestrationMessage) (id : String)
    (hl : ∀ u ∈ l, u.metadata.taskId ≠ id) :
    ∀ acc, l.foldl (fun acc t => if t.metadata.taskId = id then some t else acc) acc
      = acc := by
  induction l with
  | nil => simp
  | cons t l ih =>
    intro acc
    have ht : t.metadata.taskId ≠ id := hl t (List.mem_cons_self _ _)
    simp only [List.foldl_cons, if_neg ht]
    exact ih (fun u hu => hl u (List.mem_cons_of_mem _ hu)) acc

theorem taskMapGet_of_nodup {tasks : List OrchestrationMessage}
    (hids : (tasks.map (fun t => t.metadata.taskId)).Nodup) :
    ∀ t ∈ tasks, taskMapGet tasks t.metadata.taskId = some t := by
  induction tasks with
  | nil => simp
  | cons u l ih =>
    intro t ht
    simp only [List.map_cons, List.nodup_cons, List.mem_map] at hids
    rcases List.mem_cons.mp ht with rfl | htl
    · have hnone : ∀ v ∈ l, v.metadata.taskId ≠ t.metadata.taskId := by
        intro v hv he
        exact hids.1 ⟨v, hv, he⟩
      unfold taskMapGet
      simp only [List.foldl_cons, if_pos rfl]
      exact getFold_skip l _ hnone _
    · have := ih hids.2 t htl
      unfold taskMapGet at this ⊢
      simp only [List.foldl_cons]
      by_cases hu : u.metadata.taskId = t.metadata.taskId
      · exact absurd ⟨t, htl, hu.symm⟩ hids.1
      · rw [if_neg hu]
        exact this

theorem depFoldInner_mem (tasks : List OrchestrationMessage)
    (depsList : List String) :
    ∀ acc x,
      (x ∈ depsList.foldl
          (fun a d => if taskMapHas tasks d then insertSet a d else a) acc ↔
        x ∈ acc ∨ (x ∈ depsList ∧ taskMapHas tasks x = true)) := by
  induction depsList with
  | nil => simp
  | cons d ds ih =>
    intro acc x
    simp only [List.foldl_cons, List.mem_cons]
    by_cases hd : taskMapHas tasks d
    · rw [if_pos hd, ih, mem_insertSet]
      constructor
      · rintro ((h | rfl) | ⟨h1, h2⟩)
        · exact Or.inl h
        · exact Or.inr ⟨Or.inl rfl, hd⟩
        · exact Or.inr ⟨Or.inr h1, h2⟩
      · rintro (h | ⟨(rfl | h1), h2⟩)
        · exact Or.inl (Or.inl h)
        · exact Or.inl (Or.inr rfl)
        · exact Or.inr ⟨h1, h2⟩
    · rw [if_neg hd, ih]
      constructor
      · rintro (h | ⟨h1, h2⟩)
        · exact Or.inl h
        · exact Or.inr ⟨Or.inr h1, h2⟩
      · rintro (h | ⟨(rfl | h1), h2⟩)
        · exact Or.inl h
        · exact absurd h2 (by simpa using hd)
        · exact Or.inr ⟨h1, h2⟩

theorem depFoldOuter_mem (tasks l : List OrchestrationMessage) (id : String) :
    ∀ acc x,
      (x ∈ l.foldl
          (fun acc t =>
            if t.metadata.taskId = id then
              t.metadata.dependencies.foldl
                (fun a d => if taskMapHas tasks d then insertSet a d else a) acc
            else acc) acc ↔
        x ∈ acc ∨ ∃ t ∈ l, t.metadata.taskId = id ∧ x ∈ t.metadata.dependencies ∧
          taskMapHas tasks x = true) := by
  induction l with
  | nil => simp
  | cons t l ih =>
    intro acc x
    simp only [List.foldl_cons, List.mem_cons]
    by_cases ht : t.metadata.taskId = id
    · rw [if_pos ht, ih, depFoldInner_mem]
      constructor
      · rintro ((h | ⟨h1, h2⟩) | ⟨u, hu, h⟩)
        · exact Or.inl h
        · exact Or.inr ⟨t, Or.inl rfl, ht, h1, h2⟩
        · exact Or.inr ⟨u, Or.inr hu, h⟩
      · rintro (h | ⟨u, (rfl | hu), h⟩)
        · exact Or.inl (Or.inl h)
        · exact Or.inl (Or.inr ⟨h.2.1, h.2.2⟩)
        · exact Or.inr ⟨u, hu, h⟩
    · rw [if_neg ht, ih]
      constructor
      · rintro (h | ⟨u, hu, h⟩)
        · exact Or.inl h
        · exact Or.inr ⟨u, Or.inr hu, h⟩
      · rintro (h | ⟨u, (rfl | hu), h⟩)
        · exact Or.inl h
        · exact absurd h.1 ht
        · exact Or.inr ⟨u, hu, h⟩

theorem mem_dependencyGraphAt {tasks : List OrchestrationMessage}
    {a b : String} :
    b ∈ dependencyGraphAt tasks a ↔ planEdge tasks a b := by
  unfold dependencyGraphAt planEdge
  rw [depFoldOuter_mem]
  simp

/-! ### Properties of the depth-first traversal -/

section DfsSpec

variable (deps : String → List String) (hasTask : String → Bool)
variable (keys : List String)

theorem okPost_refl {s : DfsState} (h : Inv deps keys s) :
    OkPost deps keys s s :=
  ⟨h, rfl, fun _ hx => hx, fun _ hx => Or.inl hx, ⟨[], by simp⟩⟩

theorem okPost_trans {s s2 s3 : DfsState} (h1 : OkPost deps keys s s2)
    (h2 : OkPost deps keys s2 s3) : OkPost deps keys s s3 := by
  refine ⟨h2.inv, h2.temp.trans h1.temp, fun x hx => h2.mono x (h1.mono x hx),
    ?_, ?_⟩
  · intro x hx
    rcases h2.fresh x hx with hx2 | hx2
    · exact h1.fresh x hx2
    · rw [h1.temp] at hx2
      exact Or.inr hx2
  · obtain ⟨l1, e1⟩ := h1.ordApp
    obtain ⟨l2, e2⟩ := h2.ordApp
    exact ⟨l1 ++ l2, by rw [e2, e1, List.append_assoc]⟩

/-- Every element of the `temp` chain reaches the head of the chain by
dependency edges. -/
theorem chain_to_head :
    ∀ (t : List String) (h : String),
      List.Chain' (fun a b => a ∈ deps b) (h :: t) →
      ∀ x ∈ h :: t, x = h ∨ Relation.TransGen (DepEdge deps) x h := by
  intro t
  induction t with
  | nil =>
    intro h _ x hx
    exact Or.inl (List.mem_singleton.mp hx)
  | cons h2 t2 ih =>
    intro h hchain x hx
    rw [List.chain'_cons] at hchain
    have hedge : Relation.TransGen (DepEdge deps) h2 h :=
      Relation.TransGen.single hchain.1
    rcases List.mem_cons.mp hx with rfl | hx2
    · exact Or.inl rfl
    · rcases ih h2 hchain.2 x hx2 with rfl | htg
      · exact Or.inr hedge
      · exact Or.inr (htg.trans hedge)

theorem temp_length_le {s : DfsState}
    (h : TempInv deps keys s) : s.temp.length ≤ keys.length :=
  (h.nodup.subperm (fun _ hx => h.inKeys _ hx)).length_le

theorem listSpec_of_visitSpec (fuel : Nat)
    (hv : VisitSpec deps hasTask keys fuel) :
    ListSpec deps hasTask keys fuel := by
  intro ds
  induction ds with
  | nil =>
    intro s hInv _ _ _ _
    refine ⟨fun e he => by simp [visitList, visitListF] at he, fun s2 h2 => ?_⟩
    have hs : s = s2 := by simpa [visitList, visitListF] using h2
    subst hs
    exact ⟨okPost_refl deps keys hInv, by simp⟩
  | cons d ds ih =>
    intro s hInv hTemp hks hcall hfuel
    obtain ⟨h, t, htemp, hds⟩ := hcall
    have hv_d := hv d s hInv hTemp (hks d (List.mem_cons_self d ds))
      (Or.inr ⟨h, t, htemp, hds d (List.mem_cons_self d ds)⟩) hfuel
    cases hres : visit deps hasTask fuel d s with
    | error e =>
      refine ⟨fun e' he' => ?_, fun s2 h2 => ?_⟩
      · have : visitList deps hasTask fuel (d :: ds) s = .error e := by
          simp [visitList, visitListF, hres]
        rw [this] at he'
        cases he'
        exact hv_d.1 e hres
      · have : visitList deps hasTask fuel (d :: ds) s = .error e := by
          simp [visitList, visitListF, hres]
        rw [this] at h2
        cases h2
    | ok s1 =>
      obtain ⟨hpost, hdvis⟩ := hv_d.2 s1 hres
      have hTemp1 : TempInv deps keys s1 :=
        ⟨hpost.temp ▸ hTemp.nodup, hpost.temp ▸ hTemp.inKeys,
         hpost.temp ▸ hTemp.chain⟩
      have hih := ih s1 hpost.inv hTemp1
        (fun d' hd' => hks d' (List.mem_cons_of_mem d hd'))
        ⟨h, t, hpost.temp.trans htemp,
         fun d' hd' => hds d' (List.mem_cons_of_mem d hd')⟩
        (by rw [hpost.temp]; exact hfuel)
      have hstep : visitList deps hasTask fuel (d :: ds) s =
          visitList deps hasTask fuel ds s1 := by
        simp [visitList, visitListF, hres]
      refine ⟨fun e he => ?_, fun s2 h2 => ?_⟩
      · rw [hstep] at he
        exact hih.1 e he
      · rw [hstep] at h2
        obtain ⟨hpost2, hvis2⟩ := hih.2 s2 h2
        refine ⟨okPost_trans deps keys hpost hpost2, ?_⟩
        intro d' hd'
        rcases List.mem_cons.mp hd' with rfl | hd2
        · exact hpost2.mono d' hdvis
        · exact hvis2 d' hd2

theorem visit_spec (hdeps : ∀ a b, b ∈ deps a → b ∈ keys)
    (hkeys : ∀ k, k ∈ keys → hasTask k = true) :
    ∀ fuel, VisitSpec deps hasTask keys fuel := by
  intro fuel
  induction fuel with
  | zero =>
    intro id s _ hTemp _ _ hfuel
    have := temp_length_le deps keys hTemp
    omega
  | succ fuel ih =>
    have hlist := listSpec_of_visitSpec deps hasTask keys fuel ih
    intro id s hInv hTemp hid hcall hfuel
    by_cases hin : id ∈ s.temp
    · have hrun : visit deps hasTask (fuel + 1) id s = .error (cycleMsg id) := by
        simp [visit, hin]
      refine ⟨fun e he => ?_, fun s2 h2 => ?_⟩
      · rw [hrun] at he
        cases he
        rcases hcall with htemp | ⟨h, t, htemp, hedge⟩
        · rw [htemp] at hin
          cases hin
        · refine ⟨id, rfl, ?_⟩
          have hchain := htemp ▸ hTemp.chain
          rcases chain_to_head deps t h hchain id (htemp ▸ hin) with rfl | htg
          · exact Relation.TransGen.single hedge
          · exact htg.tail hedge
      · rw [hrun] at h2
        cases h2
    · by_cases hvis : id ∈ s.visited
      · have hrun : visit deps hasTask (fuel + 1) id s = .ok s := by
          simp [visit, hin, hvis]
        refine ⟨fun e he => ?_, fun s2 h2 => ?_⟩
        · rw [hrun] at he
          cases he
        · rw [hrun] at h2
          cases h2
          exact ⟨okPost_refl deps keys hInv, hvis⟩
      · -- the real push: temp gains `id`, the dependency loop runs, and on
        -- success `id` is appended to the order.
        have hInv1 : Inv deps keys { s with temp := id :: s.temp } :=
          ⟨hInv.memIff, hInv.nodup, hInv.pair, hInv.closed, hInv.noself,
           hInv.inKeys⟩
        have hTemp1 : TempInv deps keys { s with temp := id :: s.temp } := by
          refine ⟨List.nodup_cons.mpr ⟨hin, hTemp.nodup⟩, ?_, ?_⟩
          · intro x hx
            rcases List.mem_cons.mp hx with rfl | hx2
            · exact hid
            · exact hTemp.inKeys x hx2
          · show List.Chain' (fun a b => a ∈ deps b) (id :: s.temp)
            rcases hcall with htemp | ⟨h, t, htemp, hedge⟩
            · rw [htemp]
              exact List.chain'_singleton id
            · rw [htemp]
              rw [List.chain'_cons]
              exact ⟨hedge, htemp ▸ hTemp.chain⟩
        have hfuel1 : keys.length + 1 ≤
            fuel + ({ s with temp := id :: s.temp } : DfsState).temp.length := by
          simp only [List.length_cons]
          omega
        have hl := hlist (deps id) { s with temp := id :: s.temp } hInv1 hTemp1
          (fun d hd => hdeps id d hd) ⟨id, s.temp, rfl, fun d hd => hd⟩ hfuel1
        cases hres : visitList deps hasTask fuel (deps id)
            { s with temp := id :: s.temp } with
        | error e =>
          have hrun : visit deps hasTask (fuel + 1) id s = .error e := by
            simp only [visit, if_neg hin, if_neg hvis]
            rw [show visitListF (fun d st => visit deps hasTask fuel d st)
                (deps id) { s with temp := id :: s.temp } = .error e from hres]
          refine ⟨fun e' he' => ?_, fun s2 h2 => ?_⟩
          · rw [hrun] at he'
            cases he'
            exact hl.1 e hres
          · rw [hrun] at h2
            cases h2
        | ok s2 =>
          obtain ⟨hpost, hdvis⟩ := hl.2 s2 hres
          have htask : hasTask id = true := hkeys id hid
          have htemp2 : s2.temp = id :: s.temp := hpost.temp
          have herase : s2.temp.erase id = s.temp := by
            rw [htemp2]
            exact List.erase_cons_head id s.temp
          have hidnew : id ∉ s2.visited := by
            intro hmem
            rcases hpost.fresh id hmem with h1 | h1
            · exact hvis h1
            · exact h1 (List.mem_cons_self id s.temp)
          have hidord : id ∉ s2.order := fun h =>
            hidnew ((hpost.inv.memIff id).mpr h)
          set sFin : DfsState :=
            { visited := id :: s2.visited
              temp := s2.temp.erase id
              order := if hasTask id then s2.order ++ [id] else s2.order } with hsFin
          have hordF : sFin.order = s2.order ++ [id] := by
            simp [hsFin, htask]
          have hrun : visit deps hasTask (fuel + 1) id s = .ok sFin := by
            simp only [visit, if_neg hin, if_neg hvis]
            rw [show visitListF (fun d st => visit deps hasTask fuel d st)
                (deps id) { s with temp := id :: s.temp } = .ok s2 from hres]
          have hInvF : Inv deps keys sFin := by
            refine ⟨?_, ?_, ?_, ?_, ?_, ?_⟩
            · intro x
              rw [hordF]
              show x ∈ id :: s2.visited ↔ _
              rw [List.mem_cons, List.mem_append, List.mem_singleton,
                hpost.inv.memIff x]
              tauto
            · rw [hordF]
              refine List.Nodup.append hpost.inv.nodup (List.nodup_singleton id) ?_
              intro x hx hx2
              rw [List.mem_singleton] at hx2
              subst hx2
              exact hidord hx
            · rw [hordF]
              rw [List.pairwise_append]
              refine ⟨hpost.inv.pair, List.pairwise_singleton _ _, ?_⟩
              intro x hx y hy
              rw [List.mem_singleton] at hy
              subst hy
              intro hdep
              exact hidord (hpost.inv.closed x hx y hdep)
            · intro a ha b hb
              rw [hordF] at ha ⊢
              rcases List.mem_append.mp ha with ha2 | ha2
              · exact List.mem_append_left _ (hpost.inv.closed a ha2 b hb)
              · rw [List.mem_singleton] at ha2
                subst ha2
                exact List.mem_append_left _
                  ((hpost.inv.memIff b).mp (hdvis b hb))
            · intro a ha
              rw [hordF] at ha
              rcases List.mem_append.mp ha with ha2 | ha2
              · exact hpost.inv.noself a ha2
              · rw [List.mem_singleton] at ha2
                subst ha2
                intro hself
                exact hidnew (hdvis a hself)
            · intro x hx
              show x ∈ keys
              rcases List.mem_cons.mp hx with rfl | hx2
              · exact hid
              · exact hpost.inv.inKeys x hx2
          refine ⟨fun e he => ?_, fun s2' h2 => ?_⟩
          · rw [hrun] at he
            cases he
          · rw [hrun] at h2
            cases h2
            refine ⟨⟨hInvF, ?_, ?_, ?_, ?_⟩, List.mem_cons_self _ _⟩
            · exact herase
            · intro x hx
              exact List.mem_cons_of_mem _ (hpost.mono x hx)
            · intro x hx
              rcases List.mem_cons.mp hx with rfl | hx2
              · exact Or.inr hin
              · rcases hpost.fresh x hx2 with h1 | h1
                · exact Or.inl h1
                · exact Or.inr (fun hmem => h1 (List.mem_cons_of_mem _ hmem))
            · obtain ⟨l, hl2⟩ := hpost.ordApp
              exact ⟨l ++ [id], by rw [hordF, hl2, List.append_assoc]⟩

theorem visitAllKeys_spec (fuel : Nat)
    (hv : VisitSpec deps hasTask keys fuel)
    (hfuel : keys.length + 1 ≤ fuel) :
    ∀ ks s, Inv deps keys s → s.temp = [] → (∀ k ∈ ks, k ∈ keys) →
      (∀ e, visitAllKeys deps hasTask fuel ks s = .error e → ErrOK deps e) ∧
      (∀ s2, visitAllKeys deps hasTask fuel ks s = .ok s2 →
        Inv deps keys s2 ∧ s2.temp = [] ∧
        (∀ x ∈ s.visited, x ∈ s2.visited) ∧ ∀ k ∈ ks, k ∈ s2.visited) := by
  intro ks
  induction ks with
  | nil =>
    intro s hInv htemp _
    refine ⟨fun e he => by simp [visitAllKeys] at he, fun s2 h2 => ?_⟩
    have hs : s = s2 := by simpa [visitAllKeys] using h2
    subst hs
    exact ⟨hInv, htemp, fun _ hx => hx, by simp⟩
  | cons k ks ih =>
    intro s hInv htemp hks
    by_cases hkv : k ∈ s.visited
    · have hstep : visitAllKeys deps hasTask fuel (k :: ks) s =
          visitAllKeys deps hasTask fuel ks s := by
        simp [visitAllKeys, hkv]
      have hih := ih s hInv htemp (fun k' hk' => hks k' (List.mem_cons_of_mem k hk'))
      refine ⟨fun e he => hih.1 e (hstep ▸ he), fun s2 h2 => ?_⟩
      obtain ⟨hI, hT, hM, hK⟩ := hih.2 s2 (hstep ▸ h2)
      refine ⟨hI, hT, hM, ?_⟩
      intro k' hk'
      rcases List.mem_cons.mp hk' with rfl | hk2
      · exact hM k' hkv
      · exact hK k' hk2
    · have hTemp : TempInv deps keys s := by
        refine ⟨?_, ?_, ?_⟩ <;> simp [htemp]
      have hvk := hv k s hInv hTemp (hks k (List.mem_cons_self k ks))
        (Or.inl htemp) (by rw [htemp]; simpa using hfuel)
      cases hres : visit deps hasTask fuel k s with
      | error e =>
        have hstep : visitAllKeys deps hasTask fuel (k :: ks) s = .error e := by
          simp [visitAllKeys, hkv, hres]
        refine ⟨fun e' he' => ?_, fun s2 h2 => ?_⟩
        · rw [hstep] at he'
          cases he'
          exact hvk.1 e hres
        · rw [hstep] at h2
          cases h2
      | ok s1 =>
        obtain ⟨hpost, hkvis⟩ := hvk.2 s1 hres
        have hstep : visitAllKeys deps hasTask fuel (k :: ks) s =
            visitAllKeys deps hasTask fuel ks s1 := by
          simp [visitAllKeys, hkv, hres]
        have htemp1 : s1.temp = [] := hpost.temp.trans htemp
        have hih := ih s1 hpost.inv htemp1
          (fun k' hk' => hks k' (List.mem_cons_of_mem k hk'))
        refine ⟨fun e he => hih.1 e (hstep ▸ he), fun s2 h2 => ?_⟩
        obtain ⟨hI, hT, hM, hK⟩ := hih.2 s2 (hstep ▸ h2)
        refine ⟨hI, hT, fun x hx => hM x (hpost.mono x hx), ?_⟩
        intro k' hk'
        rcases List.mem_cons.mp hk' with rfl | hk2
        · exact hM k' hkvis
        · exact hK k' hk2

end DfsSpec

/-! ### From the order invariant to acyclicity -/

theorem transGen_exists_edge {α : Type} {r : α → α → Prop} {a b : α}
    (h : Relation.TransGen r a b) : ∃ c, r a c := by
  induction h with
  | single h => exact ⟨_, h⟩
  | tail _ _ ih => exact ih

theorem transGen_exists_edge_into {α : Type} {r : α → α → Prop} {a b : α}
    (h : Relation.TransGen r a b) : ∃ c, r c b := by
  cases h with
  | single h => exact ⟨_, h⟩
  | tail _ h => exact ⟨_, h⟩

/-- A list that is pairwise free of forward dependencies and free of
self-dependencies admits no dependency cycle among its members. -/
theorem no_cycle_in (deps : String → List String) :
    ∀ l : List String,
      List.Pairwise (fun x y => y ∉ deps x) l → (∀ a ∈ l, a ∉ deps a) →
      ∀ d, ¬ Relation.TransGen
        (fun a b => b ∈ deps a ∧ a ∈ l ∧ b ∈ l) d d := by
  intro l
  induction l with
  | nil =>
    intro _ _ d hcyc
    obtain ⟨c, hc⟩ := transGen_exists_edge hcyc
    exact (List.not_mem_nil d) hc.2.1
  | cons x rest ih =>
    intro hpair hself d hcyc
    have hpair' := List.pairwise_cons.mp hpair
    have hx : ∀ y, ¬ (y ∈ deps x ∧ x ∈ x :: rest ∧ y ∈ x :: rest) := by
      rintro y ⟨hy, _, hyl⟩
      rcases List.mem_cons.mp hyl with rfl | hyr
      · exact hself y (List.mem_cons_self _ _) hy
      · exact hpair'.1 y hyr hy
    have step : ∀ b, Relation.TransGen
        (fun a b => b ∈ deps a ∧ a ∈ x :: rest ∧ b ∈ x :: rest) d b →
        b ∈ rest → d ∈ rest ∧ Relation.TransGen
          (fun a b => b ∈ deps a ∧ a ∈ rest ∧ b ∈ rest) d b := by
      intro b h
      induction h with
      | single h =>
        intro hb
        rcases List.mem_cons.mp h.2.1 with rfl | ha
        · exact absurd h (hx _)
        · exact ⟨ha, Relation.TransGen.single ⟨h.1, ha, hb⟩⟩
      | tail h1 h2 ih2 =>
        intro hb
        rcases List.mem_cons.mp h2.2.1 with hcx | hc
        · exact absurd ⟨hcx ▸ h2.1, List.mem_cons_self _ _, h2.2.2⟩ (hx _)
        · obtain ⟨ha, htg⟩ := ih2 hc
          exact ⟨ha, htg.tail ⟨h2.1, hc, hb⟩⟩
    obtain ⟨c, hc⟩ := transGen_exists_edge hcyc
    rcases List.mem_cons.mp hc.2.1 with hdx | hd
    · subst hdx
      exact hx c hc
    · obtain ⟨_, htg⟩ := step d hcyc hd
      exact ih hpair'.2 (fun a ha => hself a (List.mem_cons_of_mem _ ha)) d htg

/-- A dependency cycle starting inside a dependency-closed list stays
inside it. -/
theorem transGen_restrict (deps : String → List String) (l : List String)
    (hclos : ∀ a ∈ l, ∀ b ∈ deps a, b ∈ l) :
    ∀ a b, Relation.TransGen (DepEdge deps) a b → a ∈ l →
      Relation.TransGen (fun a b => b ∈ deps a ∧ a ∈ l ∧ b ∈ l) a b ∧
        b ∈ l := by
  intro a b h ha
  induction h with
  | single h =>
    have hb := hclos a ha _ h
    exact ⟨Relation.TransGen.single ⟨h, ha, hb⟩, hb⟩
  | tail h1 h2 ih =>
    obtain ⟨tg, hc⟩ := ih
    have hb := hclos _ hc _ h2
    exact ⟨tg.tail ⟨h2, hc, hb⟩, hb⟩

theorem order_acyclic (deps : String → List String) (order : List String)
    (hpair : List.Pairwise (fun x y => y ∉ deps x) order)
    (hclos : ∀ a ∈ order, ∀ b ∈ deps a, b ∈ order)
    (hself : ∀ a ∈ order, a ∉ deps a) :
    ∀ d ∈ order, ¬ Relation.TransGen (DepEdge deps) d d := by
  intro d hd hcyc
  exact no_cycle_in deps order hpair hself d
    (transGen_restrict deps order hclos d d hcyc hd).1

/-! ### buildExecutionPlan: instantiating the traversal specification -/

theorem planEdge_iff_depEdge {tasks : List OrchestrationMessage}
    {a b : String} :
    planEdge tasks a b ↔ DepEdge (dependencyGraphAt tasks) a b :=
  mem_dependencyGraphAt.symm

theorem transGen_planEdge_iff {tasks : List OrchestrationMessage}
    {a b : String} :
    Relation.TransGen (planEdge tasks) a b ↔
      Relation.TransGen (DepEdge (dependencyGraphAt tasks)) a b :=
  ⟨Relation.TransGen.mono (fun _ _ h => planEdge_iff_depEdge.mp h),
   Relation.TransGen.mono (fun _ _ h => planEdge_iff_depEdge.mpr h)⟩

/-- The combined outcome of `buildExecutionPlan`: an error is a cycle
message for an id on a genuine in-plan dependency cycle, and a success
comes from a final traversal state satisfying the order invariant and
covering every key. -/
theorem buildExecutionPlan_spec (tasks : List OrchestrationMessage) :
    (∀ e, buildExecutionPlan tasks = .error e →
      ∃ d, e = cycleMsg d ∧ Relation.TransGen (planEdge tasks) d d) ∧
    (∀ l, buildExecutionPlan tasks = .ok l →
      ∃ s, Inv (dependencyGraphAt tasks) (taskMapKeys tasks) s ∧
        (∀ k ∈ taskMapKeys tasks, k ∈ s.visited) ∧
        l = (s.order.filterMap (taskMapGet tasks)).reverse) := by
  have hdeps : ∀ a b, b ∈ dependencyGraphAt tasks a → b ∈ taskMapKeys tasks := by
    intro a b hb
    rw [mem_dependencyGraphAt] at hb
    obtain ⟨t, _, _, _, hhas⟩ := hb
    rw [taskMapHas_iff] at hhas
    exact mem_taskMapKeys.mpr hhas
  have hkeys : ∀ k, k ∈ taskMapKeys tasks → taskMapHas tasks k = true :=
    fun k hk => taskMapHas_iff.mpr (mem_taskMapKeys.mp hk)
  have hknodup := taskMapKeys_nodup tasks
  have hfuel : (taskMapKeys tasks).length + 1 ≤ tasks.length + 1 := by
    have := taskMapKeys_length tasks
    omega
  have hv := visit_spec (dependencyGraphAt tasks) (taskMapHas tasks)
    (taskMapKeys tasks) hdeps hkeys (tasks.length + 1)
  have hInv0 : Inv (dependencyGraphAt tasks) (taskMapKeys tasks) ⟨[], [], []⟩ :=
    ⟨by simp, by simp, by simp, by simp, by simp, by simp⟩
  have hall := visitAllKeys_spec (dependencyGraphAt tasks) (taskMapHas tasks)
    (taskMapKeys tasks) (tasks.length + 1) hv hfuel (taskMapKeys tasks)
    ⟨[], [], []⟩ hInv0 rfl (fun _ hk => hk)
  constructor
  · intro e he
    cases hres : visitAllKeys (dependencyGraphAt tasks) (taskMapHas tasks)
        (tasks.length + 1) (taskMapKeys tasks) ⟨[], [], []⟩ with
    | error e2 =>
      have hb : buildExecutionPlan tasks = .error e2 := by
        unfold buildExecutionPlan
        rw [hres]
      rw [hb] at he
      injection he with he
      subst he
      obtain ⟨d, hd, hcyc⟩ := hall.1 e2 hres
      exact ⟨d, hd, transGen_planEdge_iff.mpr hcyc⟩
    | ok s =>
      have hb : buildExecutionPlan tasks =
          .ok ((s.order.filterMap (taskMapGet tasks)).reverse) := by
        unfold buildExecutionPlan
        rw [hres]
      rw [hb] at he
      cases he
  · intro l hl
    cases hres : visitAllKeys (dependencyGraphAt tasks) (taskMapHas tasks)
        (tasks.length + 1) (taskMapKeys tasks) ⟨[], [], []⟩ with
    | error e2 =>
      have hb : buildExecutionPlan tasks = .error e2 := by
        unfold buildExecutionPlan
        rw [hres]
      rw [hb] at hl
      cases hl
    | ok s =>
      have hb : buildExecutionPlan tasks =
          .ok ((s.order.filterMap (taskMapGet tasks)).reverse) := by
        unfold buildExecutionPlan
        rw [hres]
      rw [hb] at hl
      injection hl with hl
      subst hl
      obtain ⟨hI, _, _, hK⟩ := hall.2 s hres
      exact ⟨s, hI, hK, rfl⟩

/-- Success implies the in-plan dependency relation is acyclic. -/
theorem buildExecutionPlan_ok_acyclic {tasks : List OrchestrationMessage}
    {l : List OrchestrationMessage} (h : buildExecutionPlan tasks = .ok l) :
    ∀ d, ¬ Relation.TransGen (planEdge tasks) d d := by
  intro d hcyc
  obtain ⟨s, hI, hK, _⟩ := (buildExecutionPlan_spec tasks).2 l h
  have hcyc' := transGen_planEdge_iff.mp hcyc
  obtain ⟨c, hc⟩ := transGen_exists_edge_into hcyc'
  have hdkeys : d ∈ taskMapKeys tasks := by
    have hb := hc
    rw [← planEdge_iff_depEdge] at hb
    obtain ⟨t, _, _, _, hhas⟩ := hb
    rw [taskMapHas_iff] at hhas
    exact mem_taskMapKeys.mpr hhas
  have hdord : d ∈ s.order := (hI.memIff d).mp (hK d hdkeys)
  exact order_acyclic (dependencyGraphAt tasks) s.order hI.pair hI.closed
    hI.noself d hdord hcyc'

/-! ### Success is a permutation of the input -/

theorem keysFold_of_disjoint (l : List OrchestrationMessage) :
    ∀ acc, (l.map fun t => t.metadata.taskId).Nodup →
      (∀ x ∈ l.map fun t => t.metadata.taskId, x ∉ acc) →
      l.foldl (fun ks t => insertSet ks t.metadata.taskId) acc
        = acc ++ l.map fun t => t.metadata.taskId := by
  induction l with
  | nil => simp
  | cons t l ih =>
    intro acc hnd hdisj
    simp only [List.map_cons, List.nodup_cons] at hnd
    have hnotin : t.metadata.taskId ∉ acc := hdisj _ (by simp)
    simp only [List.foldl_cons]
    rw [show insertSet acc t.metadata.taskId = acc ++ [t.metadata.taskId] from by
      unfold insertSet; rw [if_neg hnotin]]
    rw [ih (acc ++ [t.metadata.taskId]) hnd.2 ?_]
    · simp
    · intro x hx
      rw [List.mem_append, List.mem_singleton]
      rintro (hxa | rfl)
      · exact hdisj x (List.mem_cons_of_mem _ hx) hxa
      · exact hnd.1 hx

theorem taskMapKeys_of_nodup {tasks : List OrchestrationMessage}
    (hids : (tasks.map fun t => t.metadata.taskId).Nodup) :
    taskMapKeys tasks = tasks.map fun t => t.metadata.taskId := by
  unfold taskMapKeys
  rw [keysFold_of_disjoint tasks [] hids (by simp)]
  simp

theorem filterMap_get_sub {tasks : List OrchestrationMessage}
    (hids : (tasks.map fun t => t.metadata.taskId).Nodup) :
    ∀ ts, ts ⊆ tasks →
      List.filterMap (taskMapGet tasks) (ts.map fun t => t.metadata.taskId)
        = ts := by
  intro ts
  induction ts with
  | nil => simp
  | cons u ts ih =>
    intro hsub
    have hu := taskMapGet_of_nodup hids u (hsub (List.mem_cons_self _ _))
    simp [hu, ih (fun x hx => hsub (List.mem_cons_of_mem _ hx))]

/-- On success the plan is a permutation of the input task list (assuming
the data-model invariant that task ids are unique within a plan). -/
theorem buildExecutionPlan_ok_perm {tasks l : List OrchestrationMessage}
    (hids : (tasks.map fun t => t.metadata.taskId).Nodup)
    (h : buildExecutionPlan tasks = .ok l) : l.Perm tasks := by
  obtain ⟨s, hI, hK, hl⟩ := (buildExecutionPlan_spec tasks).2 l h
  have hmemeq : ∀ x, x ∈ s.order ↔ x ∈ taskMapKeys tasks := by
    intro x
    constructor
    · intro hx
      exact hI.inKeys x ((hI.memIff x).mpr hx)
    · intro hx
      exact (hI.memIff x).mp (hK x hx)
  have hperm : s.order.Perm (taskMapKeys tasks) :=
    List.Subperm.antisymm
      (hI.nodup.subperm (fun x hx => (hmemeq x).mp hx))
      ((taskMapKeys_nodup tasks).subperm (fun x hx => (hmemeq x).mpr hx))
  have h2 : (s.order.filterMap (taskMapGet tasks)).Perm
      ((taskMapKeys tasks).filterMap (taskMapGet tasks)) :=
    hperm.filterMap _
  have h3 : (taskMapKeys tasks).filterMap (taskMapGet tasks) = tasks := by
    rw [taskMapKeys_of_nodup hids]
    exact filterMap_get_sub hids tasks (fun x hx => hx)
  rw [hl]
  exact (List.reverse_perm _).trans (h2.trans (by rw [h3]))

/-! ### Dangling dependencies do not influence the traversal -/

theorem foldl_filter_insert (p : String → Bool) :
    ∀ (l acc : List String),
      (l.filter p).foldl (fun a d => if p d then insertSet a d else a) acc
        = l.foldl (fun a d => if p d then insertSet a d else a) acc := by
  intro l
  induction l with
  | nil => simp
  | cons d l ih =>
    intro acc
    by_cases hd : p d
    · simp only [List.filter_cons, hd, List.foldl_cons, if_true]
      exact ih _
    · simp only [List.filter_cons, hd, List.foldl_cons]
      rw [if_neg (by simp [hd])]
      exact ih _

theorem dropDanglingDeps_map_taskId (tasks : List OrchestrationMessage) :
    (dropDanglingDeps tasks).map (fun t => t.metadata.taskId)
      = tasks.map fun t => t.metadata.taskId := by
  unfold dropDanglingDeps
  rw [List.map_map]
  rfl

theorem taskMapHas_dropDangling (tasks : List OrchestrationMessage) :
    taskMapHas (dropDanglingDeps tasks) = taskMapHas tasks := by
  funext id
  rw [Bool.eq_iff_iff, taskMapHas_iff, taskMapHas_iff]
  constructor
  · rintro ⟨t, ht, hid⟩
    unfold dropDanglingDeps at ht
    rw [List.mem_map] at ht
    obtain ⟨u, hu, rfl⟩ := ht
    exact ⟨u, hu, hid⟩
  · rintro ⟨t, ht, hid⟩
    refine ⟨_, List.mem_map_of_mem _ ht, hid⟩

theorem taskMapKeys_dropDangling (tasks : List OrchestrationMessage) :
    taskMapKeys (dropDanglingDeps tasks) = taskMapKeys tasks := by
  unfold taskMapKeys
  rw [← List.foldl_map (fun t : OrchestrationMessage => t.metadata.taskId)
      insertSet, ← List.foldl_map (fun t : OrchestrationMessage => t.metadata.taskId)
      insertSet, dropDanglingDeps_map_taskId]

theorem dependencyGraphAt_dropDangling (tasks : List OrchestrationMessage) :
    dependencyGraphAt (dropDanglingDeps tasks) = dependencyGraphAt tasks := by
  funext id
  unfold dependencyGraphAt
  rw [taskMapHas_dropDangling]
  unfold dropDanglingDeps
  rw [List.foldl_map]
  congr 1
  funext acc t
  by_cases ht : t.metadata.taskId = id
  · simp only [ht, if_true]
    exact foldl_filter_insert (taskMapHas tasks) t.metadata.dependencies acc
  · simp only [ht, if_false]

theorem taskMapGet_map (tasks : List OrchestrationMessage)
    (f : OrchestrationMessage → OrchestrationMessage)
    (hf : ∀ t, (f t).metadata.taskId = t.metadata.taskId) (id : String) :
    ∀ acc, (tasks.map f).foldl
        (fun acc t => if t.metadata.taskId = id then some t else acc)
        (Option.map f acc)
      = Option.map f
        (tasks.foldl (fun acc t => if t.metadata.taskId = id then some t else acc)
          acc) := by
  induction tasks with
  | nil => simp
  | cons t l ih =>
    intro acc
    simp only [List.map_cons, List.foldl_cons, hf t]
    by_cases ht : t.metadata.taskId = id
    · rw [if_pos ht, if_pos ht]
      exact ih (some t)
    · rw [if_neg ht, if_neg ht]
      exact ih acc

theorem taskMapGet_dropDangling (tasks : List OrchestrationMessage)
    (id : String) :
    taskMapGet (dropDanglingDeps tasks) id
      = Option.map
          (fun t => { t with metadata :=
            { t.metadata with dependencies :=
                t.metadata.dependencies.filter (fun d => taskMapHas tasks d) } })
          (taskMapGet tasks id) := by
  unfold taskMapGet dropDanglingDeps
  have h := taskMapGet_map tasks
    (fun t => { t with metadata :=
      { t.metadata with dependencies :=
          t.metadata.dependencies.filter (fun d => taskMapHas tasks d) } })
    (fun _ => rfl) id none
  simpa using h

/-- Ordering congruence: dropping every dangling dependency reference from
the input does not change the outcome of `buildExecutionPlan` — same error,
or the same sequence of task ids. -/
theorem buildExecutionPlan_dropDangling (tasks : List OrchestrationMessage) :
    (buildExecutionPlan (dropDanglingDeps tasks)).map
        (List.map fun t => t.metadata.taskId)
      = (buildExecutionPlan tasks).map
          (List.map fun t => t.metadata.taskId) := by
  unfold buildExecutionPlan
  rw [taskMapHas_dropDangling, taskMapKeys_dropDangling,
    dependencyGraphAt_dropDangling,
    show (dropDanglingDeps tasks).length = tasks.length from by
      simp [dropDanglingDeps]]
  cases visitAllKeys (dependencyGraphAt tasks) (taskMapHas tasks)
      (tasks.length + 1) (taskMapKeys tasks) ⟨[], [], []⟩ with
  | error e => rfl
  | ok s =>
    simp only [Except.map]
    congr 1
    rw [List.map_reverse, List.map_reverse]
    congr 1
    rw [List.map_filterMap, List.map_filterMap]
    congr 1
    funext id
    rw [taskMapGet_dropDangling]
    cases taskMapGet tasks id with
    | none => rfl
    | some t => rfl

end TaskDecomposer
namespace KnowledgeGraph

/-! ### Facts about buildContextFromNodes -/

theorem buildContext_entities_def (g : Graph) (sel : List ScoredNode) :
    (buildContextFromNodes g sel).entities
      = (sel.foldl (ctxStep g) ([], [], [])).2.1 := rfl

theorem buildContext_relationships_def (g : Graph) (sel : List ScoredNode) :
    (buildContextFromNodes g sel).relationships
      = (sel.foldl (ctxStep g) ([], [], [])).2.2 := rfl

theorem ctxStep_fst (g : Graph)
    (acc : List String × List ContextEntity × List ContextRel)
    (sn : ScoredNode) : (ctxStep g acc sn).1 = insertSet acc.1 sn.node.id := rfl

theorem ctxStep_snd (g : Graph)
    (acc : List String × List ContextEntity × List ContextRel)
    (sn : ScoredNode) :
    (ctxStep g acc sn).2.1
      = acc.2.1 ++ [(⟨sn.node.id, sn.node.type, sn.node.data⟩ : ContextEntity)] := rfl

theorem ctxStep_thd (g : Graph)
    (acc : List String × List ContextEntity × List ContextRel)
    (sn : ScoredNode) :
    (ctxStep g acc sn).2.2
      = acc.2.2 ++ ctxNewRels g (insertSet acc.1 sn.node.id) sn := rfl

theorem mem_ctxNewRels {g : Graph} {included : List String} {sn : ScoredNode}
    {r : ContextRel} (hr : r ∈ ctxNewRels g included sn) :
    ∃ e ∈ g.edges, e.fromId = sn.node.id ∧ e.toId ∈ included ∧
      r = ⟨e.fromId, e.toId, e.type, e.data⟩ := by
  unfold ctxNewRels at hr
  rw [List.mem_map] at hr
  obtain ⟨e, he, rfl⟩ := hr
  rw [List.mem_filter] at he
  obtain ⟨he1, he2⟩ := he
  unfold Graph.getEdgesFrom at he1
  rw [List.mem_filter] at he1
  refine ⟨e, he1.1, by simpa using he1.2, by simpa using he2, rfl⟩

theorem ctxNewRels_mem {g : Graph} {included : List String} {sn : ScoredNode}
    {e : GraphEdge} (he : e ∈ g.edges) (hfrom : e.fromId = sn.node.id)
    (hto : e.toId ∈ included) :
    (⟨e.fromId, e.toId, e.type, e.data⟩ : ContextRel)
      ∈ ctxNewRels g included sn := by
  unfold ctxNewRels
  rw [List.mem_map]
  refine ⟨e, ?_, rfl⟩
  rw [List.mem_filter]
  constructor
  · unfold Graph.getEdgesFrom
    rw [List.mem_filter]
    exact ⟨he, by simp [hfrom]⟩
  · simp [hto]

/-- Soundness invariant of the context accumulator: every included id has
an entity record, and both endpoints of every collected relationship do. -/
def CtxAccOK (acc : List String × List ContextEntity × List ContextRel) : Prop :=
  (∀ x ∈ acc.1, ∃ e ∈ acc.2.1, e.id = x) ∧
  (∀ r ∈ acc.2.2, (∃ e ∈ acc.2.1, e.id = r.fromId) ∧
    (∃ e ∈ acc.2.1, e.id = r.toId))

theorem ctxStep_ok {g : Graph}
    {acc : List String × List ContextEntity × List ContextRel}
    {sn : ScoredNode} (h : CtxAccOK acc) :
    CtxAccOK (ctxStep g acc sn) ∧
      (ctxStep g acc sn).2.1.length = acc.2.1.length + 1 := by
  have hids : ∀ x ∈ insertSet acc.1 sn.node.id,
      ∃ e ∈ acc.2.1 ++ [(⟨sn.node.id, sn.node.type, sn.node.data⟩ : ContextEntity)],
        e.id = x := by
    intro x hx
    rcases mem_insertSet.mp hx with hx2 | rfl
    · obtain ⟨e, he, heq⟩ := h.1 x hx2
      exact ⟨e, List.mem_append_left _ he, heq⟩
    · exact ⟨_, List.mem_append_right _ (List.mem_singleton_self _), rfl⟩
  constructor
  · constructor
    · rw [ctxStep_fst, ctxStep_snd]
      exact hids
    · intro r hr
      rw [ctxStep_thd] at hr
      rw [ctxStep_snd]
      rcases List.mem_append.mp hr with hr2 | hr2
      · obtain ⟨⟨e1, he1, heq1⟩, ⟨e2, he2, heq2⟩⟩ := h.2 r hr2
        exact ⟨⟨e1, List.mem_append_left _ he1, heq1⟩,
          ⟨e2, List.mem_append_left _ he2, heq2⟩⟩
      · obtain ⟨e, _, hfrom, hto, rfl⟩ := mem_ctxNewRels hr2
        constructor
        · refine ⟨_, List.mem_append_right _ (List.mem_singleton_self _), ?_⟩
          exact hfrom.symm
        · exact hids _ hto
  · rw [ctxStep_snd]
    simp

theorem ctxFold_ok (g : Graph) :
    ∀ (sel : List ScoredNode) acc, CtxAccOK acc →
      CtxAccOK (sel.foldl (ctxStep g) acc) ∧
        (sel.foldl (ctxStep g) acc).2.1.length = acc.2.1.length + sel.length := by
  intro sel
  induction sel with
  | nil => intro acc h; exact ⟨h, by simp⟩
  | cons sn sel ih =>
    intro acc h
    obtain ⟨h1, h2⟩ := @ctxStep_ok g acc sn h
    obtain ⟨h3, h4⟩ := ih (ctxStep g acc sn) h1
    refine ⟨h3, ?_⟩
    simp only [List.foldl_cons, h4, h2, List.length_cons]
    omega

/-- The `getRelevantContext` outcome on a present `content`. -/
theorem getRelevantContext_ok {g : Graph} {msg : KGMessage} {maxNodes : Nat}
    {c : String} (hc : msg.content = some c) :
    getRelevantContext g msg maxNodes =
      .ok (buildContextFromNodes g
        ((sortByRelevanceDesc (findRelevantNodes g
          (extractKeywords (strToLower c))
          (msg.metadata.getD {}).taskType)).take maxNodes)) := by
  unfold getRelevantContext
  rw [hc]

theorem relationships_append (g : Graph) :
    ∀ (sel : List ScoredNode) acc,
      ∃ l, (sel.foldl (ctxStep g) acc).2.2 = acc.2.2 ++ l := by
  intro sel
  induction sel with
  | nil => intro acc; exact ⟨[], by simp⟩
  | cons sn sel ih =>
    intro acc
    obtain ⟨l, hl⟩ := ih (ctxStep g acc sn)
    refine ⟨ctxNewRels g (insertSet acc.1 sn.node.id) sn ++ l, ?_⟩
    simp only [List.foldl_cons, hl, ctxStep_thd]
    rw [List.append_assoc]

/-- An edge from the node being processed to an id that is already
included (or to the node itself) ends up in the relationships. -/
theorem ctxFold_rel_included (g : Graph) (e : GraphEdge) :
    ∀ (p : List ScoredNode) (sn : ScoredNode) (rest : List ScoredNode) acc,
      e ∈ g.edges → e.fromId = sn.node.id →
      (e.toId ∈ acc.1 ∨ (∃ x ∈ p, x.node.id = e.toId) ∨ e.toId = sn.node.id) →
      (⟨e.fromId, e.toId, e.type, e.data⟩ : ContextRel) ∈
        ((p ++ sn :: rest).foldl (ctxStep g) acc).2.2 := by
  intro p
  induction p with
  | nil =>
    intro sn rest acc he hfrom hto
    simp only [List.nil_append, List.foldl_cons]
    obtain ⟨l, hl⟩ := relationships_append g rest (ctxStep g acc sn)
    rw [hl]
    refine List.mem_append_left _ ?_
    rw [ctxStep_thd]
    refine List.mem_append_right _ ?_
    refine ctxNewRels_mem he hfrom ?_
    rcases hto with hto | hto | hto
    · exact mem_insertSet.mpr (Or.inl hto)
    · obtain ⟨x, hx, _⟩ := hto
      cases hx
    · exact mem_insertSet.mpr (Or.inr hto)
  | cons q p ih =>
    intro sn rest acc he hfrom hto
    simp only [List.cons_append, List.foldl_cons]
    refine ih sn rest (ctxStep g acc q) he hfrom ?_
    rw [ctxStep_fst]
    rcases hto with hto | hto | hto
    · exact Or.inl (mem_insertSet.mpr (Or.inl hto))
    · obtain ⟨x, hx, hxe⟩ := hto
      rcases List.mem_cons.mp hx with rfl | hx2
      · exact Or.inl (mem_insertSet.mpr (Or.inr hxe.symm))
      · exact Or.inr (Or.inl ⟨x, hx2, hxe⟩)
    · exact Or.inr (Or.inr hto)

/-! ### Facts for the missing-content and empty-query behaviour -/

theorem scoreStep_no_keywords (acc : List ScoredNode) (n : GraphNode) :
    scoreStep [] none acc n = acc := by
  unfold scoreStep
  rw [if_neg]
  simp [keywordMatches, Score.posB, taskTypeRelevance]

theorem findRelevantNodes_no_keywords (g : Graph) :
    findRelevantNodes g [] none = [] := by
  unfold findRelevantNodes Graph.getAllNodes
  suffices h : ∀ (l : List GraphNode) (acc : List ScoredNode),
      l.foldl (scoreStep [] none) acc = acc by
    exact h g.nodes []
  intro l
  induction l with
  | nil => intro acc; rfl
  | cons n l ih =>
    intro acc
    simp only [List.foldl_cons, scoreStep_no_keywords]
    exact ih acc

end KnowledgeGraph

namespace ContextCompressor

/-! ### Facts about the greedy packing loop -/

theorem totalCost_nil (co : Collaborators) : totalCost co [] = 0 := rfl

theorem totalCost_cons (co : Collaborators) (c : Component)
    (l : List Component) :
    totalCost co (c :: l)
      = (co.count (co.stringifyComponent c) : Int) + totalCost co l := by
  unfold totalCost
  simp

/-- When every component fits in turn, all are included verbatim and
nothing is mutated. -/
theorem fit_allFit (co : Collaborators) (budget : Int) :
    ∀ (l : List Component) (used : Int), AllFit co budget l used →
      fitComponentsInBudget co budget l used = (l, l) := by
  intro l
  induction l with
  | nil => intro used _; rfl
  | cons c rest ih =>
    intro used h
    obtain ⟨hfit, hrest⟩ := h
    unfold fitComponentsInBudget
    rw [if_pos hfit, ih _ hrest]

/-- The packing loop walks past a prefix that fits, including it verbatim,
and continues on the rest with the prefix's cost spent. -/
theorem fit_append (co : Collaborators) (budget : Int) :
    ∀ (pre rest : List Component) (used : Int), AllFit co budget pre used →
      fitComponentsInBudget co budget (pre ++ rest) used =
        (pre ++ (fitComponentsInBudget co budget rest (used + totalCost co pre)).1,
         pre ++ (fitComponentsInBudget co budget rest (used + totalCost co pre)).2) := by
  intro pre
  induction pre with
  | nil =>
    intro rest used _
    simp [totalCost_nil]
  | cons p pre ih =>
    intro rest used h
    obtain ⟨hfit, hrest⟩ := h
    have hstep : fitComponentsInBudget co budget ((p :: pre) ++ rest) used =
        (p :: (fitComponentsInBudget co budget (pre ++ rest)
            (used + (co.count (co.stringifyComponent p) : Int))).1,
         p :: (fitComponentsInBudget co budget (pre ++ rest)
            (used + (co.count (co.stringifyComponent p) : Int))).2) := by
      show (if used + (co.count (co.stringifyComponent p) : Int) ≤ budget then _
        else _) = _
      rw [if_pos hfit]
      rfl
    rw [hstep, ih rest _ hrest]
    have harith : used + (co.count (co.stringifyComponent p) : Int) + totalCost co pre
        = used + totalCost co (p :: pre) := by
      rw [totalCost_cons]
      omega
    rw [harith]
    simp

/-- With a negative budget nothing fits verbatim and the spent-token
counter stays at zero: the result is the first successful compression, or
nothing. -/
theorem fit_negative (co : Collaborators) (budget : Int) (hneg : budget < 0) :
    ∀ l : List Component,
      (fitComponentsInBudget co budget l 0).1 =
        (l.findSome? (fun c => (compressComponent co c budget).1)).toList := by
  intro l
  induction l with
  | nil => rfl
  | cons c rest ih =>
    unfold fitComponentsInBudget
    have hnofit : ¬ ((0 : Int) + (co.count (co.stringifyComponent c) : Int) ≤ budget) := by
      have : (0 : Int) ≤ (co.count (co.stringifyComponent c) : Int) := Int.ofNat_nonneg _
      omega
    rw [if_neg hnofit]
    rw [List.findSome?_cons]
    have hsub : budget - (0 : Int) = budget := Int.sub_zero budget
    rw [hsub]
    cases hcc : compressComponent co c budget with
    | mk opt c2 =>
      cases opt with
      | some x => simp
      | none => simpa using ih

end ContextCompressor

/-! ## The claims -/

namespace TaskDecomposer

example : inferWorkerType "Scan the repo" "" = "project-scan" := by decide

example : inferWorkerType "Fix bug" "null check" = "local-data" := by decide

/-- Claim C1 (code-bug evidence): on the two-task input where `task-2`
depends on `task-1` (an acyclic in-plan dependency relation),
`buildExecutionPlan` succeeds with the order `[task-2, task-1]`: the
dependent strictly BEFORE its in-plan dependency.  The recursive visit
already pushes dependencies before dependents, so the final
`executionOrder.reverse()` inverts the correct order, contradicting the
claim, the spec, and the source's own comment
"Reverse to get correct execution order". -/
theorem C1_reverse_bug :
    buildExecutionPlan [Fixtures.planT1, Fixtures.planT2]
        = .ok [Fixtures.planT2, Fixtures.planT1] ∧
      planEdge [Fixtures.planT1, Fixtures.planT2] "task-2" "task-1" :=
  ⟨rfl, by unfold planEdge; decide⟩

/-- Claim C4: for every input task set whose in-plan dependency relation
contains a cycle, `buildExecutionPlan` fails with the cycle error naming a
task id involved in a cycle; the result being `Except.error`, no partial
execution order reaches the caller. -/
theorem C4_cycle_error (tasks : List OrchestrationMessage)
    (hcyc : ∃ d, Relation.TransGen (planEdge tasks) d d) :
    ∃ d, buildExecutionPlan tasks = .error (cycleMsg d) ∧
      Relation.TransGen (planEdge tasks) d d := by
  cases hres : buildExecutionPlan tasks with
  | ok l =>
    obtain ⟨d, hd⟩ := hcyc
    exact absurd hd (buildExecutionPlan_ok_acyclic hres d)
  | error e =>
    obtain ⟨d, he, hd⟩ := (buildExecutionPlan_spec tasks).1 e hres
    refine ⟨d, ?_, hd⟩
    rw [← he]

/-- Claim C4, witnessed on the concrete two-cycle `a ↔ b`. -/
theorem C4_cycle_error_witness :
    ∃ d, buildExecutionPlan [Fixtures.cycTaskA, Fixtures.cycTaskB]
        = .error (cycleMsg d) ∧
      Relation.TransGen (planEdge [Fixtures.cycTaskA, Fixtures.cycTaskB]) d d := by
  refine C4_cycle_error _ ⟨"a", ?_⟩
  have h1 : planEdge [Fixtures.cycTaskA, Fixtures.cycTaskB] "a" "b" := by
    unfold planEdge
    decide
  have h2 : planEdge [Fixtures.cycTaskA, Fixtures.cycTaskB] "b" "a" := by
    unfold planEdge
    decide
  exact Relation.TransGen.head h1 (Relation.TransGen.single h2)

/-- Claim C5: dangling dependency references never make
`buildExecutionPlan` fail (every failure exhibits an in-plan cycle, and
dangling references are outside the in-plan relation by construction),
never constrain the ordering (dropping every dangling reference yields the
same outcome, id for id), and never produce an output entry for the absent
id (a successful plan is a permutation of the input tasks: exactly the
input tasks, each exactly once). -/
theorem C5_dangling_references (tasks : List OrchestrationMessage)
    (hids : (tasks.map fun t => t.metadata.taskId).Nodup) :
    (∀ e, buildExecutionPlan tasks = .error e →
      ∃ d, e = cycleMsg d ∧ Relation.TransGen (planEdge tasks) d d) ∧
    (∀ l, buildExecutionPlan tasks = .ok l → l.Perm tasks) ∧
    (buildExecutionPlan (dropDanglingDeps tasks)).map
        (List.map fun t => t.metadata.taskId)
      = (buildExecutionPlan tasks).map (List.map fun t => t.metadata.taskId) :=
  ⟨(buildExecutionPlan_spec tasks).1,
   fun _ h => buildExecutionPlan_ok_perm hids h,
   buildExecutionPlan_dropDangling tasks⟩

/-- Claim C5, witnessed on a concrete task with a dangling reference. -/
theorem C5_dangling_references_witness :
    (∀ e, buildExecutionPlan [Fixtures.danglingTask] = .error e →
      ∃ d, e = cycleMsg d ∧
        Relation.TransGen (planEdge [Fixtures.danglingTask]) d d) ∧
    (∀ l, buildExecutionPlan [Fixtures.danglingTask] = .ok l →
      l.Perm [Fixtures.danglingTask]) ∧
    (buildExecutionPlan (dropDanglingDeps [Fixtures.danglingTask])).map
        (List.map fun t => t.metadata.taskId)
      = (buildExecutionPlan [Fixtures.danglingTask]).map
          (List.map fun t => t.metadata.taskId) :=
  C5_dangling_references [Fixtures.danglingTask] (by decide)

/-- Claim C3 counterexample: a caller-supplied task carrying
`status := "running"` and `retries := 5` keeps those values in the
normalized output — the metadata spread `...task.metadata` overrides the
freshly written `status: 'pending', retries: 0`. -/
theorem C3_counterexample :
    (validateAndEnrichTasks [Fixtures.rawCarried]).map
        (fun t => (t.metadata.status, t.metadata.retries))
      = [("running", 5)] := rfl

/-- Claim C3 amended: `status` becomes `pending` and `retries` becomes 0
exactly when the caller's input metadata does not itself carry those
fields; caller-supplied values survive the spread (see the
counterexample). -/
theorem C3_defaults_when_absent (tasks : List RawTask) (i : Nat)
    (raw : RawTask) (hi : tasks[i]? = some raw)
    (hstat : (raw.metadata.getD {}).status = none)
    (hret : (raw.metadata.getD {}).retries = none) :
    ∃ out, (validateAndEnrichTasks tasks)[i]? = some out ∧
      out.metadata.status = "pending" ∧ out.metadata.retries = 0 := by
  unfold validateAndEnrichTasks
  rw [List.getElem?_mapIdx, hi, Option.map_some']
  refine ⟨_, rfl, ?_, ?_⟩
  · show (raw.metadata.getD {}).status.getD "pending" = "pending"
    rw [hstat]
    rfl
  · show (raw.metadata.getD {}).retries.getD 0 = 0
    rw [hret]
    rfl

/-- Claim C3 amended, witnessed on a task without status or retries. -/
theorem C3_defaults_when_absent_witness :
    ∃ out, (validateAndEnrichTasks [Fixtures.rawPlain])[0]? = some out ∧
      out.metadata.status = "pending" ∧ out.metadata.retries = 0 :=
  C3_defaults_when_absent [Fixtures.rawPlain] 0 Fixtures.rawPlain rfl rfl rfl

end TaskDecomposer

namespace KnowledgeGraph

/-- Claim C2 counterexample: on the graph with nodes `A`, `B` and the edge
`A → B`, a query selecting both nodes (A sorted before B) returns both
entities yet NO relationships: when `A` was processed, `B` was not yet in
`includedNodeIds`, so the edge with both endpoints selected is omitted. -/
theorem C2_counterexample :
    Fixtures.edgeAB ∈ Fixtures.graphAB.edges ∧
    (getRelevantContext Fixtures.graphAB Fixtures.msgAlpha 20).map
        (fun ctx => (ctx.entities.map (fun e => e.id), ctx.relationships))
      = .ok (["A", "B"], []) :=
  ⟨by decide, rfl⟩

/-- Claim C2 amended: the context built from the selected nodes contains
every graph edge whose source is the i-th selected node and whose target
is the j-th selected node for some j ≤ i (the target is already included
when the source is processed; self-loops count).  Edges whose target is
selected only later are omitted, as the counterexample shows. -/
theorem C2_amended_backward_edges (g : Graph) (sel : List ScoredNode)
    (e : GraphEdge) (i j : Nat) (hj : j ≤ i) (hi : i < sel.length)
    (he : e ∈ g.edges)
    (hfrom : e.fromId = (sel.get ⟨i, hi⟩).node.id)
    (hto : e.toId = (sel.get ⟨j, Nat.lt_of_le_of_lt hj hi⟩).node.id) :
    (⟨e.fromId, e.toId, e.type, e.data⟩ : ContextRel) ∈
      (buildContextFromNodes g sel).relationships := by
  rw [buildContext_relationships_def]
  have hsplit : sel.take i ++ sel.get ⟨i, hi⟩ :: sel.drop (i + 1) = sel := by
    rw [show sel.get ⟨i, hi⟩ :: sel.drop (i + 1) = sel.drop i from
      List.getElem_cons_drop sel i hi]
    exact List.take_append_drop i sel
  rw [← hsplit]
  refine ctxFold_rel_included g e (sel.take i) (sel.get ⟨i, hi⟩)
    (sel.drop (i + 1)) ([], [], []) he hfrom ?_
  rcases Nat.lt_or_ge j i with hlt | hge
  · have hjt : j < (sel.take i).length := by
      rw [List.length_take]
      omega
    refine Or.inr (Or.inl ⟨(sel.take i).get ⟨j, hjt⟩, List.get_mem _ _ _, ?_⟩)
    have hgt : (sel.take i).get ⟨j, hjt⟩ = sel.get ⟨j, Nat.lt_of_le_of_lt hj hi⟩ := by
      simp [List.get_eq_getElem, List.getElem_take]
    rw [hgt]
    exact hto.symm
  · have hji : j = i := Nat.le_antisymm hj hge
    subst hji
    exact Or.inr (Or.inr hto)

/-- Claim C2 amended, witnessed: with selection `[B, A]` (B first), the
edge `A → B` points backwards in the selection order and is included. -/
theorem C2_amended_backward_edges_witness :
    (⟨Fixtures.edgeAB.fromId, Fixtures.edgeAB.toId, Fixtures.edgeAB.type,
        Fixtures.edgeAB.data⟩ : ContextRel) ∈
      (buildContextFromNodes Fixtures.graphAB
        [Fixtures.snB, Fixtures.snA]).relationships :=
  C2_amended_backward_edges Fixtures.graphAB [Fixtures.snB, Fixtures.snA]
    Fixtures.edgeAB 1 0 (by decide) (by decide) (by decide) rfl rfl

/-- Claim C6: `getRelevantContext` returns at most `maxNodes` entities,
and every relationship in the result has both endpoints among the ids of
the returned entities. -/
theorem C6_context_bounds (g : Graph) (msg : KGMessage) (maxNodes : Nat)
    (ctx : KGContext) (h : getRelevantContext g msg maxNodes = .ok ctx) :
    ctx.entities.length ≤ maxNodes ∧
    ∀ r ∈ ctx.relationships,
      (∃ e ∈ ctx.entities, e.id = r.fromId) ∧
      (∃ e ∈ ctx.entities, e.id = r.toId) := by
  cases hc : msg.content with
  | none =>
    unfold getRelevantContext at h
    rw [hc] at h
    cases h
  | some c =>
    rw [getRelevantContext_ok hc] at h
    injection h with h
    subst h
    obtain ⟨hok, hlen⟩ := ctxFold_ok g
      ((sortByRelevanceDesc (findRelevantNodes g (extractKeywords (strToLower c))
        (msg.metadata.getD {}).taskType)).take maxNodes)
      ([], [], []) ⟨by simp, by simp⟩
    constructor
    · rw [buildContext_entities_def, hlen]
      simp only [List.length_nil, Nat.zero_add, List.length_take]
      omega
    · intro r hr
      rw [buildContext_relationships_def] at hr
      have hend := hok.2 r hr
      rw [buildContext_entities_def]
      exact hend

/-- Claim C6, witnessed on the concrete graph and query. -/
theorem C6_context_bounds_witness :
    ∃ ctx, getRelevantContext Fixtures.graphAB Fixtures.msgAlpha 20 = .ok ctx ∧
      ctx.entities.length ≤ 20 ∧
      ∀ r ∈ ctx.relationships,
        (∃ e ∈ ctx.entities, e.id = r.fromId) ∧
        (∃ e ∈ ctx.entities, e.id = r.toId) :=
  ⟨_, rfl, C6_context_bounds Fixtures.graphAB Fixtures.msgAlpha 20 _ rfl⟩

/-- Claim C9 counterexample: a task message without content makes
`getRelevantContext` throw (the TypeError of
`taskMessage.content.toLowerCase()` on `undefined`), rather than return an
empty context. -/
theorem C9_counterexample :
    getRelevantContext Fixtures.graphAB Fixtures.msgNoContent 20
      = .error JsError.typeError := rfl

/-- Claim C9 amended: a query target whose content is MISSING raises a
TypeError (see the counterexample); one whose content is present but holds
no extractable keywords (the empty string) and that carries no task type
returns an empty context — no entities, no relationships — without
error. -/
theorem C9_empty_query (g : Graph) (msg : KGMessage) (maxNodes : Nat)
    (hc : msg.content = some "") (ht : (msg.metadata.getD {}).taskType = none) :
    ∃ ctx, getRelevantContext g msg maxNodes = .ok ctx ∧
      ctx.entities = [] ∧ ctx.relationships = [] := by
  rw [getRelevantContext_ok hc]
  rw [show extractKeywords (strToLower "") = [] from rfl, ht,
    findRelevantNodes_no_keywords]
  rw [show sortByRelevanceDesc [] = [] from rfl, List.take_nil]
  exact ⟨_, rfl, rfl, rfl⟩

/-- Claim C9 amended, witnessed on a concrete graph and empty-content
message. -/
theorem C9_empty_query_witness :
    ∃ ctx, getRelevantContext Fixtures.graphAB Fixtures.msgEmptyContent 20
        = .ok ctx ∧ ctx.entities = [] ∧ ctx.relationships = [] :=
  C9_empty_query Fixtures.graphAB Fixtures.msgEmptyContent 20 rfl rfl

end KnowledgeGraph

namespace ContextCompressor

theorem fit_cons_nofit (co : Collaborators) (budget : Int) (c : Component)
    (rest : List Component) (used : Int)
    (h : ¬ (used + (co.count (co.stringifyComponent c) : Int) ≤ budget)) :
    fitComponentsInBudget co budget (c :: rest) used =
      match compressComponent co c (budget - used) with
      | (some x, c2) => ([x], c2 :: rest)
      | (none, c2) => ((fitComponentsInBudget co budget rest used).1,
          c2 :: (fitComponentsInBudget co budget rest used).2) := by
  show (if used + (co.count (co.stringifyComponent c) : Int) ≤ budget then _
    else _) = _
  rw [if_neg h]

theorem compressComponent_deps (co : Collaborators) (c : Component)
    (budget : Int) (hdeps : c.type = "dependencies")
    (hne : c.dependencies ≠ []) :
    compressComponent co c budget =
      (some { type := "dependencies"
              dependencies := (sortDepsDesc c.dependencies).take
                (max 1 (Int.fdiv budget 50)).toNat
              totalCount := some c.dependencies.length
              isCompressed := true },
       { c with dependencies := sortDepsDesc c.dependencies }) := by
  unfold compressComponent
  rw [if_neg (show ¬ (c.type = "code") from by rw [hdeps]; decide), if_pos hdeps]
  unfold compressDependenciesComponent
  rw [if_pos (List.length_pos.mpr hne)]

/-- Claim C7: greedy packing includes each component verbatim while it
fits the unused budget; at a component that does not fit (after a fitting
prefix), a successful type-specific compression is included and packing
STOPS (nothing after it is considered), while a declined compression drops
the component silently and packing continues on the remaining
components. -/
theorem C7_greedy_packing (co : Collaborators) (budget : Int) :
    (∀ cs, AllFit co budget cs 0 →
      (fitComponentsInBudget co budget cs 0).1 = cs) ∧
    (∀ pre c post, AllFit co budget pre 0 →
      budget < totalCost co pre + (co.count (co.stringifyComponent c) : Int) →
      (∀ x, (compressComponent co c (budget - totalCost co pre)).1 = some x →
        (fitComponentsInBudget co budget (pre ++ c :: post) 0).1 = pre ++ [x]) ∧
      ((compressComponent co c (budget - totalCost co pre)).1 = none →
        (fitComponentsInBudget co budget (pre ++ c :: post) 0).1 =
          pre ++ (fitComponentsInBudget co budget post (totalCost co pre)).1)) := by
  constructor
  · intro cs h
    rw [fit_allFit co budget cs 0 h]
  · intro pre c post hpre hover
    have happ := fit_append co budget pre (c :: post) 0 hpre
    have hz : (0 : Int) + totalCost co pre = totalCost co pre := by omega
    rw [hz] at happ
    have hnofit : ¬ (totalCost co pre +
        (co.count (co.stringifyComponent c) : Int) ≤ budget) := by omega
    have hstep := fit_cons_nofit co budget c post (totalCost co pre) hnofit
    constructor
    · intro x hx
      cases hcc : compressComponent co c (budget - totalCost co pre) with
      | mk opt c2 =>
        rw [hcc] at hstep hx
        cases opt with
        | some y =>
          have hstep2 : fitComponentsInBudget co budget (c :: post)
              (totalCost co pre) = ([y], c2 :: post) := hstep
          have hx2 : some y = some x := hx
          injection hx2 with hx2
          subst hx2
          rw [happ]
          show pre ++ (fitComponentsInBudget co budget (c :: post)
            (totalCost co pre)).1 = pre ++ [y]
          rw [hstep2]
        | none =>
          have hx2 : (none : Option Component) = some x := hx
          cases hx2
    · intro hx
      cases hcc : compressComponent co c (budget - totalCost co pre) with
      | mk opt c2 =>
        rw [hcc] at hstep hx
        cases opt with
        | some y =>
          have hx2 : some y = (none : Option Component) := hx
          cases hx2
        | none =>
          have hstep2 : fitComponentsInBudget co budget (c :: post)
              (totalCost co pre)
            = ((fitComponentsInBudget co budget post (totalCost co pre)).1,
               c2 :: (fitComponentsInBudget co budget post (totalCost co pre)).2) :=
            hstep
          rw [happ]
          show pre ++ (fitComponentsInBudget co budget (c :: post)
            (totalCost co pre)).1 = _
          rw [hstep2]

/-- Claim C8 counterexample: essential metadata costing 10 against
`maxTokens = 5` (negative remaining budget) still yields a NON-empty
component list: the dependencies component is compressed — down to
`max(1, floor(-5 / 50)) = 1` item — and included. -/
theorem C8_counterexample :
    ((Fixtures.collabFix.count
        (Fixtures.collabFix.stringifyMeta
          (extractEssentialMetadata Fixtures.ctxDeps)) : Int) > 5) ∧
    (compress Fixtures.collabFix Fixtures.ctxDeps 5).1.components
      = [{ type := "dependencies", dependencies := [Fixtures.depHi],
           totalCount := some 2, isCompressed := true }] :=
  ⟨by decide, rfl⟩

/-- Claim C8 amended: when the essential metadata alone exceeds
`maxTokens`, the returned object still contains the essential metadata and
NO component is included verbatim; the component list is exactly the first
successful type-specific compression (attempted at the negative remaining
budget), or empty when every component declines. -/
theorem C8_negative_budget (co : Collaborators) (context : CompressorContext)
    (maxTokens : Int)
    (hneg : maxTokens <
      (co.count (co.stringifyMeta (extractEssentialMetadata context)) : Int)) :
    (compress co context maxTokens).1.meta = extractEssentialMetadata context ∧
    (compress co context maxTokens).1.components =
      ((co.prioritize context).findSome? (fun c =>
        (compressComponent co c (maxTokens -
          (co.count (co.stringifyMeta (extractEssentialMetadata context)) : Int))).1)).toList := by
  refine ⟨rfl, ?_⟩
  show (fitComponentsInBudget co (maxTokens -
    (co.count (co.stringifyMeta (extractEssentialMetadata context)) : Int))
    (co.prioritize context) 0).1 = _
  exact fit_negative co _ (by omega) (co.prioritize context)

/-- Claim C8 amended, witnessed on the concrete over-budget input. -/
theorem C8_negative_budget_witness :
    (compress Fixtures.collabFix Fixtures.ctxDeps 5).1.meta
        = extractEssentialMetadata Fixtures.ctxDeps ∧
    (compress Fixtures.collabFix Fixtures.ctxDeps 5).1.components =
      ((Fixtures.collabFix.prioritize Fixtures.ctxDeps).findSome? (fun c =>
        (compressComponent Fixtures.collabFix c ((5 : Int) -
          (Fixtures.collabFix.count (Fixtures.collabFix.stringifyMeta
            (extractEssentialMetadata Fixtures.ctxDeps)) : Int))).1)).toList :=
  C8_negative_budget Fixtures.collabFix Fixtures.ctxDeps 5 (by decide)

/-- Claim C10: `compress` is not free of side effects on its input: when
packing reaches a non-empty `dependencies` component that undergoes
compression, the caller's `component.dependencies` array is reordered in
place (stable-sorted by descending `importanceScore`).  The post-state
shows every other component untouched, and on the sorted component every
field other than `dependencies` unchanged. -/
theorem C10_inplace_dependency_sort (co : Collaborators)
    (context : CompressorContext) (maxTokens : Int)
    (pre post : List Component) (c : Component)
    (hsplit : co.prioritize context = pre ++ c :: post)
    (hpre : AllFit co (maxTokens -
      (co.count (co.stringifyMeta (extractEssentialMetadata context)) : Int)) pre 0)
    (hover : maxTokens -
        (co.count (co.stringifyMeta (extractEssentialMetadata context)) : Int) <
      totalCost co pre + (co.count (co.stringifyComponent c) : Int))
    (hdeps : c.type = "dependencies") (hne : c.dependencies ≠ []) :
    (compress co context maxTokens).2 =
      pre ++ { c with dependencies := sortDepsDesc c.dependencies } :: post := by
  show (fitComponentsInBudget co (maxTokens -
    (co.count (co.stringifyMeta (extractEssentialMetadata context)) : Int))
    (co.prioritize context) 0).2 = _
  rw [hsplit]
  have happ := fit_append co (maxTokens -
    (co.count (co.stringifyMeta (extractEssentialMetadata context)) : Int))
    pre (c :: post) 0 hpre
  have hz : (0 : Int) + totalCost co pre = totalCost co pre := by omega
  rw [hz] at happ
  rw [happ]
  show pre ++ (fitComponentsInBudget co _ (c :: post) (totalCost co pre)).2 = _
  have hnofit : ¬ (totalCost co pre +
      (co.count (co.stringifyComponent c) : Int) ≤ maxTokens -
        (co.count (co.stringifyMeta (extractEssentialMetadata context)) : Int)) := by
    omega
  have hstep := fit_cons_nofit co _ c post (totalCost co pre) hnofit
  rw [compressComponent_deps co c _ hdeps hne] at hstep
  have hstep2 : fitComponentsInBudget co (maxTokens -
      (co.count (co.stringifyMeta (extractEssentialMetadata context)) : Int))
      (c :: post) (totalCost co pre)
    = ([{ type := "dependencies"
          dependencies := (sortDepsDesc c.dependencies).take
            (max 1 (Int.fdiv ((maxTokens -
              (co.count (co.stringifyMeta (extractEssentialMetadata context)) : Int))
              - totalCost co pre) 50)).toNat
          totalCount := some c.dependencies.length
          isCompressed := true }],
       { c with dependencies := sortDepsDesc c.dependencies } :: post) := hstep
  rw [hstep2]

/-- Claim C10, witnessed: compressing the concrete context reorders the
dependencies of its single component from `[lo, hi]` to `[hi, lo]` in the
post-state. -/
theorem C10_inplace_dependency_sort_witness :
    (compress Fixtures.collabFix Fixtures.ctxDeps 5).2 =
      [] ++ { Fixtures.compDeps with
        dependencies := sortDepsDesc Fixtures.compDeps.dependencies } :: [] :=
  C10_inplace_dependency_sort Fixtures.collabFix Fixtures.ctxDeps 5 [] []
    Fixtures.compDeps rfl (by trivial) (by decide) rfl (by decide)

end ContextCompressor
